import Mathlib

/-!
Shallow embedding of the RSS-Extractor repository (src/main.py, src/utils.py,
src/feed_finder.py, src/hub_parser.py) and proofs about its specification.

Python strings are modelled as `List Char`.  Network fetches and DOM
extraction (curl_cffi GETs, BeautifulSoup queries) are modelled as oracles
passed in explicitly; every piece of control flow, string processing and
classification logic of the repository is embedded directly from the source.
-/

/-! ## Python string primitives -/

/-- The whitespace characters removed by Python `str.strip()` (ASCII range). -/
def pyIsSpace (c : Char) : Bool :=
  c = ' ' || c = '\t' || c = '\n' || c = '\r' || c = '\x0b' || c = '\x0c'

/-- `l.rstrip(chars-satisfying-p)`: drop the trailing run of characters satisfying `p`. -/
def rstripP (p : Char → Bool) (l : List Char) : List Char :=
  (l.reverse.dropWhile p).reverse

/-- Python `str.strip()` with no arguments. -/
def pyStrip (l : List Char) : List Char :=
  rstripP pyIsSpace (l.dropWhile pyIsSpace)

/-- Python `str.rstrip('/')`. -/
def rstripSlash (l : List Char) : List Char := rstripP (fun c => c = '/') l

/-- Python `str.strip('/')`. -/
def stripSlashes (l : List Char) : List Char :=
  rstripP (fun c => c = '/') (l.dropWhile (fun c => c = '/'))

/-- Python `str.lower()` (ASCII case mapping). -/
def pyLower (l : List Char) : List Char := l.map Char.toLower

/-- Boolean prefix test on character lists (`l.startswith(p)` for a single
candidate prefix). -/
def strStarts : List Char → List Char → Bool
  | [], _ => true
  | _ :: _, [] => false
  | a :: as, b :: bs => a == b && strStarts as bs

/-- Python substring test `needle in haystack`. -/
def containsSub (n : List Char) : List Char → Bool
  | [] => n.isEmpty
  | c :: t => strStarts n (c :: t) || containsSub n t

/-- Fuel-driven worker for `countSub`; the fuel is the length of the haystack,
which bounds the number of scanning steps. -/
def countSubFuel (n : List Char) : Nat → List Char → Nat
  | 0, _ => 0
  | _, [] => 0
  | fuel + 1, c :: t =>
    if strStarts n (c :: t) then 1 + countSubFuel n fuel (t.drop (n.length - 1))
    else countSubFuel n fuel t

/-- Python `haystack.count(needle)`: non-overlapping occurrence count, scanning
from the left. -/
def countSub (n l : List Char) : Nat := countSubFuel n l.length l

/-- Split a string at the first occurrence of `c`: the part before it, and
(`some`) the part after it when `c` occurs at all. -/
def cutAt (c : Char) (l : List Char) : List Char × Option (List Char) :=
  (l.takeWhile (fun a => a ≠ c),
   match l.dropWhile (fun a => a ≠ c) with
   | [] => none
   | _ :: t => some t)

/-- Python `str.split(c)` with an explicit one-character separator. -/
def pySplit (c : Char) : List Char → List (List Char)
  | [] => [[]]
  | a :: rest =>
    if a = c then [] :: pySplit c rest
    else
      match pySplit c rest with
      | [] => [[a]]
      | p :: ps => (a :: p) :: ps

/-- Python string join with the two-character separator (semicolon, space). -/
def joinSemiSpace : List (List Char) → List Char
  | [] => []
  | [x] => x
  | x :: y :: t => x ++ ';' :: ' ' :: joinSemiSpace (y :: t)

/-! ## Model of `urllib.parse.urlparse` (CPython 3.x `urlsplit` plus the
params split that `urlparse` performs on the last path segment). -/

/-- The segment of `p` after its last `/` (all of `p` when it has no slash). -/
def lastSegment (p : List Char) : List Char :=
  (p.reverse.takeWhile (fun c => c ≠ '/')).reverse

/-- CPython `_splitparams` as used by `urlparse`: remove everything from the
first `;` of the last path segment onwards (the `params` field, which the
repository never reads). -/
def splitParams (p : List Char) : List Char :=
  if p.contains ';' then
    if p.contains '/' then
      let b := lastSegment p
      if b.contains ';' then p.take (p.length - b.length) ++ b.takeWhile (fun c => c ≠ ';')
      else p
    else p.takeWhile (fun c => c ≠ ';')
  else p

/-- CPython `scheme_chars`. -/
def isSchemeChar (c : Char) : Bool :=
  c.isAlpha || c.isDigit || c = '+' || c = '-' || c = '.'

/-- A character that does not terminate the netloc portion of a URL. -/
def notUrlDelim (c : Char) : Bool := c ≠ '/' && c ≠ '?' && c ≠ '#'

structure UrlParts where
  scheme : List Char
  netloc : List Char
  path : List Char
  query : List Char
  fragment : List Char
deriving DecidableEq

/-- Parsing of everything after `scheme:` when the URL starts with `scheme://`:
netloc up to the first of `/`, `?`, `#`; then the fragment is cut at the first
`#`; then the query at the first `?`; params are stripped from the path. -/
def parseTail (scheme r : List Char) : UrlParts :=
  { scheme := scheme,
    netloc := r.takeWhile notUrlDelim,
    path := splitParams (cutAt '?' (cutAt '#' (r.dropWhile notUrlDelim)).1).1,
    query := (cutAt '?' (cutAt '#' (r.dropWhile notUrlDelim)).1).2.getD [],
    fragment := (cutAt '#' (r.dropWhile notUrlDelim)).2.getD [] }

/-- Model of `urllib.parse.urlparse`, faithful on every string the repository
parses (all of which either start with `http://`/`https://` after the
normalizers prepend a scheme, or are empty).  Bracket validation of IPv6
netlocs is not modelled. -/
def pyUrlparse (s : List Char) : UrlParts :=
  let pre := s.takeWhile (fun a => a ≠ ':')
  let schemeRest : List Char × List Char :=
    match s.dropWhile (fun a => a ≠ ':') with
    | _ :: t => if pre ≠ [] && pre.all isSchemeChar then (pyLower pre, t) else ([], s)
    | [] => ([], s)
  let rest0 := schemeRest.2
  let netlocRest : List Char × List Char :=
    if strStarts ['/', '/'] rest0 then
      ((rest0.drop 2).takeWhile notUrlDelim, (rest0.drop 2).dropWhile notUrlDelim)
    else ([], rest0)
  let fragCut := cutAt '#' netlocRest.2
  let queryCut := cutAt '?' fragCut.1
  { scheme := schemeRest.1, netloc := netlocRest.1, path := splitParams queryCut.1,
    query := queryCut.2.getD [], fragment := fragCut.2.getD [] }

/-- An optional URL component introduced by a marker character. -/
def optPart (c : Char) : Option (List Char) → List Char
  | none => []
  | some q => c :: q

def schemeMarker : List Char := "://".data

/-- The startswith test of the source against the two scheme markers `http://` and `https://`. -/
def startsWithHttp (l : List Char) : Bool :=
  strStarts ("http://".data) l || strStarts ("https://".data) l

/-! ## Sorting (Python `sorted` on strings: stable ascending sort in the
code-point lexicographic order, which is the `≤` of `List Char`) -/

/-- Python `sorted` on a list of strings. -/
def pySort (l : List (List Char)) : List (List Char) :=
  List.insertionSort (fun a b => a ≤ b) l

/-! ## Order-preserving deduplication (`dict.fromkeys` / seen-set loops) -/

def dedupFrom (seen : List (List Char)) : List (List Char) → List (List Char)
  | [] => []
  | x :: xs => if x ∈ seen then dedupFrom seen xs else x :: dedupFrom (x :: seen) xs

/-- `list(dict.fromkeys(l))`, equally the `seen`-set accumulation loops of the
repository: keep the first occurrence of every element. -/
def dedupKeys (l : List (List Char)) : List (List Char) := dedupFrom [] l

/-! ## utils.py: URL normalizers -/

def notFoundStr : List Char := "Not found".data

/-- `utils.normalize_url`: origin-only site URL (src/utils.py lines 77-89). -/
def normalize_url (url : List Char) : List Char :=
  if url = [] then url
  else
    let u := if startsWithHttp url then url else ("https://".data) ++ url
    let p := pyUrlparse u
    p.scheme ++ schemeMarker ++ rstripSlash p.netloc

/-- `utils.normalize_feed_url` (src/utils.py lines 92-114). -/
def normalize_feed_url (feed_url : List Char) : Option (List Char) :=
  if feed_url = [] then none
  else
    let t := pyStrip feed_url
    if t = [] then none
    else
      let u := if startsWithHttp t then t else ("https://".data) ++ t
      let p := pyUrlparse u
      let path := if p.path = [] then [] else rstripSlash p.path
      let n := p.scheme ++ schemeMarker ++ p.netloc ++ path
      some (if p.query = [] then n else n ++ '?' :: p.query)

/-- The reassembly step of `normalize_feed_url`: `scheme://netloc{path}` with
all trailing slashes stripped from a nonempty path, plus `?query` when a
nonempty query exists; the fragment is dropped. -/
def reassemble (p : UrlParts) : List Char :=
  if p.query = [] then
    p.scheme ++ schemeMarker ++ p.netloc ++ (if p.path = [] then [] else rstripSlash p.path)
  else
    p.scheme ++ schemeMarker ++ p.netloc ++ (if p.path = [] then [] else rstripSlash p.path) ++
      '?' :: p.query

/-- Strip exactly one trailing slash, the literal reading of the claim text. -/
def stripOneTrailingSlash (p : List Char) : List Char :=
  match p.getLast? with
  | some '/' => p.dropLast
  | _ => p

/-- Modelled from the spec claim wording for `normalizeFeedURL`: identical to
the source function except that it strips a single trailing `/` from the path
and keeps the parsed path as a whole.  Used only to compare the claim against
the source behaviour. -/
def normalizeFeedURLClaim (feed_url : List Char) : Option (List Char) :=
  if feed_url = [] then none
  else
    let t := pyStrip feed_url
    if t = [] then none
    else
      let u := if startsWithHttp t then t else ("https://".data) ++ t
      let p := pyUrlparse u
      let path := if p.path = [] then [] else stripOneTrailingSlash p.path
      let n := p.scheme ++ schemeMarker ++ p.netloc ++ path
      some (if p.query = [] then n else n ++ '?' :: p.query)

/-- `utils.normalize_feed_list` (src/utils.py lines 117-147). -/
def normalize_feed_list (rss : List Char) : List (List Char) :=
  if rss = [] || rss = notFoundStr then []
  else pySort (dedupKeys ((pySplit ';' rss).filterMap normalize_feed_url))

/-! ## HTTP model and the feed validator -/

structure HttpResponse where
  status_code : Nat
  content_type : List Char
  text : List Char
deriving DecidableEq

/-- Outcome of one `session.get` call: a response, or a raised exception
(timeout, connection error, ...). -/
inductive FetchOutcome where
  | ok : HttpResponse → FetchOutcome
  | exn : FetchOutcome
deriving DecidableEq

def feedCtypeMarkers : List (List Char) := ["xml".data, "rss".data, "atom".data]

def feedBodyMarkers : List (List Char) :=
  ["<rss".data, "<feed".data, "<?xml".data, "<atom".data]

/-- `FeedFinder._check_feed` (src/feed_finder.py lines 160-184), as a function
of the fetch outcome for the probed URL. -/
def check_feed : FetchOutcome → Bool
  | .exn => false
  | .ok r =>
    if r.status_code ≠ 200 then false
    else if feedCtypeMarkers.any (fun t => containsSub t (pyLower r.content_type)) then true
    else feedBodyMarkers.any (fun m => containsSub m (pyLower (r.text.take 500)))

/-! ## hub_parser.py -/

structure FeedRecord where
  category : List Char
  title : List Char
  url : List Char
deriving DecidableEq

/-- The inner `check_feed` of `RSSHubParser.validate_feeds` (src/hub_parser.py
lines 265-287): returns the record when its URL classifies as a feed. -/
def hubCheckFeed (fetch : List Char → FetchOutcome) (feed : FeedRecord) : Option FeedRecord :=
  match fetch feed.url with
  | .exn => none
  | .ok r =>
    if r.status_code ≠ 200 then none
    else if feedCtypeMarkers.any (fun t => containsSub t (pyLower r.content_type)) then some feed
    else if feedBodyMarkers.any (fun m => containsSub m (pyLower (r.text.take 500))) then some feed
    else none

/-- The `asyncio.Semaphore(10)` bound of `RSSHubParser.validate_feeds`. -/
def hubValidationLimit : Nat := 10

/-- `RSSHubParser.validate_feeds` (src/hub_parser.py lines 262-301): check all
records, keep those that came back as records. -/
def validate_feeds (fetch : List Char → FetchOutcome) (feeds : List FeedRecord) :
    List FeedRecord :=
  (feeds.map (hubCheckFeed fetch)).filterMap id

def hubIndicators : List (List Char) :=
  ["rss feed".data, "subscribe to".data, "feed url".data, "syndication".data,
   "available feeds".data, "rss feeds".data, "atom feed".data, "news feeds".data,
   "feed list".data, "rss channels".data, "subscribe via rss".data]

/-- `RSSHubParser.looks_like_hub_page` (src/hub_parser.py lines 79-107). -/
def looks_like_hub_page (html : List Char) : Bool :=
  let content := pyLower html
  let indicator_count := (hubIndicators.filter (fun i => containsSub i content)).length
  let feed_link_count :=
    countSub (".xml".data) content + countSub ("href=\"/feed".data) content +
      countSub ("href=\"/rss".data) content + countSub ("atom.xml".data) content
  decide (2 ≤ indicator_count) || decide (3 ≤ feed_link_count)

def hubUrlMarkers : List (List Char) :=
  ["/rss".data, "/feeds".data, "/feed-list".data, "/subscribe".data, "/syndication".data]

/-- `main.is_hub_page` (src/main.py lines 76-79); the `session` argument of the
source is unused. -/
def is_hub_page (url : List Char) : Bool :=
  hubUrlMarkers.any (fun p => containsSub p (pyLower url))

/-! ## feed_finder.py: CMS detection and the discovery strategies -/

inductive CmsTag where
  | wordpress
  | drupal
  | ghost
  | medium
deriving DecidableEq

/-- `utils.detect_cms` (src/utils.py lines 27-42); the `soup` argument of the
source is unused. -/
def detect_cms (htmlText : List Char) : Option CmsTag :=
  let text := pyLower htmlText
  if containsSub ("wp-content".data) text || containsSub ("wp-".data) text then some .wordpress
  else if containsSub ("drupal".data) text then some .drupal
  else if containsSub ("/ghost/".data) text then some .ghost
  else if containsSub ("medium.com".data) text then some .medium
  else none

/-- `utils.get_cms_feed_paths` (src/utils.py lines 44-51). -/
def get_cms_feed_paths : Option CmsTag → List (List Char)
  | some .wordpress => ["/feed".data, "/comments/feed".data, "/blog/feed".data]
  | some .drupal => ["/rss.xml".data, "/feed".data]
  | some .ghost => ["/rss/".data]
  | some .medium => ["/feed".data]
  | none => []

/-- External capabilities used by `FeedFinder`: the HTTP GET outcome per URL,
the hrefs of feed-typed `link` tags and of all anchors of a page (DOM
queries), and `urllib.parse.urljoin`. -/
structure FinderEnv where
  fetch : List Char → FetchOutcome
  linkHrefs : List Char → List (List Char)
  anchorHrefs : List Char → List (List Char)
  joinUrl : List Char → List Char → List Char

/-- Probe a candidate list and keep the URLs whose probe classifies as a feed,
the shared shape of every strategy of `FeedFinder`. -/
def probeAll (env : FinderEnv) (urls : List (List Char)) : List (List Char) :=
  urls.filter (fun u => check_feed (env.fetch u))

/-- `FeedFinder._try_cms_paths` (src/feed_finder.py lines 60-71). -/
def try_cms_paths (env : FinderEnv) (base : List Char) (cms : Option CmsTag) :
    List (List Char) :=
  probeAll env ((get_cms_feed_paths cms).map (fun p => base ++ p))

def commonFeedPaths : List (List Char) :=
  ["/rss".data, "/feed".data, "/rss.xml".data, "/feed.xml".data, "/atom.xml".data,
   "/index.xml".data, "/feeds".data, "/blog/feed".data, "/rss-feed".data,
   "/site/rss".data, "/site/feed".data, "/syndication".data, "/feed/rss".data,
   "/atom".data, "/news/rss".data, "/blog/rss".data]

/-- `FeedFinder._try_common_paths` (src/feed_finder.py lines 114-142). -/
def try_common_paths (env : FinderEnv) (base : List Char) : List (List Char) :=
  probeAll env (commonFeedPaths.map (fun p => base ++ p))

def nestedSuffixes : List (List Char) :=
  ["/feed".data, "/feed.xml".data, "/rss".data, "/rss.xml".data, "/atom.xml".data]

/-- `FeedFinder._try_nested_paths` (src/feed_finder.py lines 144-158). -/
def try_nested_paths (env : FinderEnv) (base : List Char) (parsed : UrlParts) :
    List (List Char) :=
  if parsed.path = [] || stripSlashes parsed.path = [] then []
  else probeAll env (nestedSuffixes.map (fun sub => base ++ rstripSlash parsed.path ++ sub))

/-- `FeedFinder._extract_from_link_tags` (src/feed_finder.py lines 73-90). -/
def extractLinkTagFeeds (env : FinderEnv) (url html : List Char) : List (List Char) :=
  probeAll env ((env.linkHrefs html).map (env.joinUrl url))

def anchorMarkers : List (List Char) := ["rss".data, "feed".data, "xml".data, "atom".data]

/-- `FeedFinder._extract_from_anchor_tags` (src/feed_finder.py lines 92-112). -/
def extractAnchorFeeds (env : FinderEnv) (url html : List Char) : List (List Char) :=
  let cands := dedupKeys
    (((env.anchorHrefs html).filter
        (fun h => anchorMarkers.any (fun m => containsSub m (pyLower h)))).map
      (env.joinUrl url))
  probeAll env (cands.take 30)

/-- Body of a page fetch guarded by `raise_for_status`: an exception or a 4xx
or 5xx status yields no body. -/
def pageBody : FetchOutcome → Option (List Char)
  | .exn => none
  | .ok r => if 400 ≤ r.status_code then none else some r.text

/-- `FeedFinder.find_feeds` (src/feed_finder.py lines 10-55): fetch the landing
page, run the five strategies, merge their results with normalization and
order-preserving dedup. -/
def find_feeds (env : FinderEnv) (url : List Char) : List (List Char) :=
  match pageBody (env.fetch url) with
  | none => []
  | some html =>
    let base := normalize_url url
    let parsed := pyUrlparse url
    let cms := detect_cms html
    let results :=
      (if cms.isSome then try_cms_paths env base cms else []) ++
        extractLinkTagFeeds env url html ++
        extractAnchorFeeds env url html ++
        try_common_paths env base ++
        try_nested_paths env base parsed
    dedupKeys (results.filterMap normalize_feed_url)

/-! ## main.py: per-site orchestration -/

/-- Outcome of awaiting a Python coroutine: a value, or a raised exception. -/
inductive PyRes (α : Type) where
  | ok : α → PyRes α
  | exn : PyRes α
deriving DecidableEq

/-- Outcomes of the awaited sub-calls of `process_website` for one site: what
`hub_parser.parse_feeds`, `hub_parser.validate_feeds` and
`feed_finder.find_feeds` return (or raise) for this site's URL. -/
structure SiteEnv where
  parse_feeds : PyRes (List FeedRecord)
  validate : List FeedRecord → PyRes (List FeedRecord)
  find_feeds_res : PyRes (List (List Char))

structure SiteResult where
  website : List Char
  rss : List Char
deriving DecidableEq

/-- Join the feeds with semicolon-space, or the `Not found` sentinel when the list is empty (src/main.py line 72). -/
def renderFeeds (feeds : List (List Char)) : List Char :=
  if feeds = [] then notFoundStr else joinSemiSpace feeds

/-- The hub branch of `process_website` (src/main.py lines 27-48): parse the
hub page; on a nonempty yield of more than 5 records run batch validation;
normalize and dedup the record URLs. -/
def hubRoute (env : SiteEnv) : PyRes (List (List Char)) :=
  match env.parse_feeds with
  | .exn => .exn
  | .ok objs =>
    if objs = [] then .ok []
    else
      match (if 5 < objs.length then env.validate objs else .ok objs) with
      | .exn => .exn
      | .ok objs2 =>
        .ok (dedupKeys (objs2.filterMap (fun f => normalize_feed_url f.url)))

/-- The generic branch of `process_website` (src/main.py lines 49-58):
normalize and dedup whatever the Feed Finder returned. -/
def finderRoute (env : SiteEnv) : PyRes (List (List Char)) :=
  match env.find_feeds_res with
  | .exn => .exn
  | .ok found => .ok (dedupKeys (found.filterMap normalize_feed_url))

/-- The try/except of `process_website` (src/main.py lines 26-70): any raised
exception degrades to an empty feed list. -/
def caughtFeeds : PyRes (List (List Char)) → List (List Char)
  | .exn => []
  | .ok fs => fs

/-- `main.process_website` (src/main.py lines 17-73). -/
def process_website (env : SiteEnv) (url0 : List Char) : SiteResult :=
  let url := normalize_url url0
  if url = [] then { website := url0, rss := notFoundStr }
  else
    { website := url,
      rss := renderFeeds (caughtFeeds
        (if is_hub_page url then hubRoute env else finderRoute env)) }

/-- `main.process_all` (src/main.py lines 82-100): all per-site tasks run and
their results are collected in completion order, given here as the list of
task indices in the order they completed. -/
def process_all (order : List Nat) (jobs : List (SiteEnv × List Char)) : List SiteResult :=
  order.filterMap (fun i => (jobs[i]?).map (fun j => process_website j.1 j.2))

/-! ## utils.py: persistence -/

/-- The stored feed list of a row: split the text column on `;`, strip each
entry, drop empty entries (src/utils.py lines 209-212). -/
def parseStoredList (s : Option (List Char)) : List (List Char) :=
  match s with
  | none => []
  | some str => ((pySplit ';' str).map pyStrip).filter (fun u => u ≠ [])

/-- The `rss_feeds` table: rows of (website_url, feed_urls), feed_urls nullable. -/
abbrev DbRows : Type := List (List Char × Option (List Char))

/-- `SELECT feed_urls FROM rss_feeds WHERE website_url = $1`. -/
def dbLookup (db : DbRows) (k : List Char) : Option (Option (List Char)) :=
  (List.find? (fun e => e.1 == k) db).map (fun e => e.2)

/-- `INSERT ... ON CONFLICT (website_url) DO UPDATE SET feed_urls = ...`. -/
def dbUpsert (db : DbRows) (k : List Char) (v : Option (List Char)) : DbRows :=
  if (List.find? (fun e => e.1 == k) db).isSome then
    db.map (fun e => if e.1 == k then (k, v) else e)
  else db ++ [(k, v)]

/-- `utils.save_website_result` (src/utils.py lines 187-230). -/
def save_website_result (db : DbRows) (website_url rss_string : List Char) : DbRows :=
  let key := normalize_url website_url
  let newList := normalize_feed_list rss_string
  let newStr : Option (List Char) := if newList = [] then none else some (joinSemiSpace newList)
  match dbLookup db key with
  | some old =>
    if newList.length ≤ (parseStoredList old).length then db
    else dbUpsert db key newStr
  | none => dbUpsert db key newStr

/-- `utils.save_batch_results` (src/utils.py lines 233-235). -/
def save_batch_results (db : DbRows) (results : List SiteResult) : DbRows :=
  results.foldl (fun d r => save_website_result d r.website r.rss) db

/-- Number of feeds stored for a site key. -/
def storedCount (db : DbRows) (k : List Char) : Nat :=
  match dbLookup db k with
  | some s => (parseStoredList s).length
  | none => 0

/-- Modelled from the spec data model: a normalized SiteURL has scheme `http`
or `https`, no trailing slash, and is origin-only (empty path, query and
fragment). -/
def isNormalizedSiteURL (s : List Char) : Bool :=
  startsWithHttp s && decide (s.getLast? ≠ some '/') &&
    decide ((pyUrlparse s).path = []) && decide ((pyUrlparse s).query = []) &&
    decide ((pyUrlparse s).fragment = [])

/-! ## Lemmas: prefixes, takeWhile, dropWhile, cutAt -/

theorem strStarts_iff (l1 l2 : List Char) : strStarts l1 l2 = true ↔ l1 <+: l2 := by
  induction l1 generalizing l2 with
  | nil => simp [strStarts]
  | cons a as ih =>
    cases l2 with
    | nil => simp [strStarts]
    | cons b bs => simp [strStarts, ih, List.cons_prefix_cons, And.comm]

theorem takeWhile_append_all (p : Char → Bool) (X Y : List Char)
    (h : ∀ a ∈ X, p a = true) : (X ++ Y).takeWhile p = X ++ Y.takeWhile p := by
  induction X with
  | nil => rfl
  | cons a t ih =>
    simp [List.takeWhile_cons, h a (by simp), ih (fun b hb => h b (by simp [hb]))]

theorem dropWhile_append_all (p : Char → Bool) (X Y : List Char)
    (h : ∀ a ∈ X, p a = true) : (X ++ Y).dropWhile p = Y.dropWhile p := by
  induction X with
  | nil => rfl
  | cons a t ih =>
    simp only [List.cons_append, List.dropWhile_cons, h a (by simp)]
    exact ih (fun b hb => h b (by simp [hb]))

theorem takeWhile_all (p : Char → Bool) (X : List Char) (h : ∀ a ∈ X, p a = true) :
    X.takeWhile p = X := by
  induction X with
  | nil => rfl
  | cons a t ih =>
    simp [List.takeWhile_cons, h a (by simp), ih (fun b hb => h b (by simp [hb]))]

theorem dropWhile_all (p : Char → Bool) (X : List Char) (h : ∀ a ∈ X, p a = true) :
    X.dropWhile p = [] :=
  List.dropWhile_eq_nil_iff.mpr h

theorem dropWhile_head_false (p : Char → Bool) (l : List Char) (a : Char) (t : List Char)
    (h : l.dropWhile p = a :: t) : p a = false := by
  have := List.head?_dropWhile_not p l
  rw [h] at this
  simpa using this

theorem dropWhile_fix (p : Char → Bool) (l : List Char) :
    (l.dropWhile p).dropWhile p = l.dropWhile p := by
  cases h : l.dropWhile p with
  | nil => rfl
  | cons a t => simp [List.dropWhile_cons, dropWhile_head_false p l a t h]

theorem mem_of_mem_takeWhile (p : Char → Bool) (l : List Char) (a : Char)
    (h : a ∈ l.takeWhile p) : a ∈ l := ( List.takeWhile_prefix p).subset h

theorem mem_of_mem_dropWhile (p : Char → Bool) (l : List Char) (a : Char)
    (h : a ∈ l.dropWhile p) : a ∈ l := (List.dropWhile_suffix p).subset h

theorem cutAt_not_mem (c : Char) (X : List Char) (h : c ∉ X) : cutAt c X = (X, none) := by
  have hall : ∀ a ∈ X, (decide (a ≠ c)) = true := by
    intro a ha
    simp only [decide_eq_true_eq]
    exact fun e => h (e ▸ ha)
  unfold cutAt
  rw [takeWhile_all _ X hall, dropWhile_all _ X hall]

theorem cutAt_append (c : Char) (X Y : List Char) (h : c ∉ X) :
    cutAt c (X ++ c :: Y) = (X, some Y) := by
  have hall : ∀ a ∈ X, (decide (a ≠ c)) = true := by
    intro a ha
    simp only [decide_eq_true_eq]
    exact fun e => h (e ▸ ha)
  unfold cutAt
  rw [takeWhile_append_all _ X _ hall, dropWhile_append_all _ X _ hall]
  simp [List.takeWhile_cons, List.dropWhile_cons]

/-! ## Lemmas: rstrip and strip -/

theorem rstripP_decomp (p : Char → Bool) (l : List Char) :
    l = rstripP p l ++ (l.reverse.takeWhile p).reverse := by
  have h2 := congrArg List.reverse (@List.takeWhile_append_dropWhile _ p l.reverse)
  rw [List.reverse_append, List.reverse_reverse] at h2
  exact h2.symm

theorem rstripP_pfx (p : Char → Bool) (l : List Char) : rstripP p l <+: l :=
  ⟨(l.reverse.takeWhile p).reverse, (rstripP_decomp p l).symm⟩

theorem mem_of_mem_rstripP (p : Char → Bool) (l : List Char) (a : Char)
    (h : a ∈ rstripP p l) : a ∈ l := (rstripP_pfx p l).subset h

theorem rstripP_idem (p : Char → Bool) (l : List Char) :
    rstripP p (rstripP p l) = rstripP p l := by
  unfold rstripP
  rw [List.reverse_reverse, dropWhile_fix]

theorem getLast?_eq_head?_reverse (l : List Char) : l.getLast? = l.reverse.head? :=
  (List.head?_reverse l).symm

theorem head?_eq_getLast?_reverse (l : List Char) : l.reverse.getLast? = l.head? := by
  rw [getLast?_eq_head?_reverse, List.reverse_reverse]

theorem rstripP_getLast (p : Char → Bool) (l : List Char) (a : Char)
    (h : (rstripP p l).getLast? = some a) : p a = false := by
  unfold rstripP at h
  rw [head?_eq_getLast?_reverse] at h
  cases hd : l.reverse.dropWhile p with
  | nil => rw [hd] at h; cases h
  | cons b t =>
    rw [hd] at h
    cases h
    exact dropWhile_head_false p l.reverse _ _ hd

theorem rstripP_eq_self (p : Char → Bool) (l : List Char)
    (h : ∀ c, l.getLast? = some c → p c = false) : rstripP p l = l := by
  unfold rstripP
  cases hrev : l.reverse with
  | nil =>
    have : l = [] := by simpa using congrArg List.reverse hrev
    simp [this]
  | cons b rb =>
    have hb : l.getLast? = some b := by
      rw [getLast?_eq_head?_reverse, hrev]; rfl
    rw [List.dropWhile_cons, h b hb]
    simp [← hrev]

theorem pyStrip_nil : pyStrip [] = [] := rfl

theorem pyStrip_cons_space (c : Char) (l : List Char) (h : pyIsSpace c = true) :
    pyStrip (c :: l) = pyStrip l := by
  unfold pyStrip
  rw [List.dropWhile_cons, h]
  simp

theorem mem_of_mem_pyStrip (l : List Char) (a : Char) (h : a ∈ pyStrip l) : a ∈ l := by
  unfold pyStrip at h
  exact mem_of_mem_dropWhile _ _ _ (mem_of_mem_rstripP _ _ _ h)

theorem pyStrip_eq_self (l : List Char)
    (h1 : ∀ c, l.head? = some c → pyIsSpace c = false)
    (h2 : ∀ c, l.getLast? = some c → pyIsSpace c = false) : pyStrip l = l := by
  cases l with
  | nil => rfl
  | cons a t =>
    unfold pyStrip
    rw [List.dropWhile_cons, h1 a rfl]
    simp only [Bool.false_eq_true, if_false]
    exact rstripP_eq_self _ _ h2

theorem pyStrip_idem (l : List Char) : pyStrip (pyStrip l) = pyStrip l := by
  unfold pyStrip
  cases hs : rstripP pyIsSpace (l.dropWhile pyIsSpace) with
  | nil => rfl
  | cons a t =>
    have hpref := rstripP_pfx pyIsSpace (l.dropWhile pyIsSpace)
    rw [hs] at hpref
    obtain ⟨tail, htail⟩ := hpref
    have hhead : pyIsSpace a = false := by
      apply dropWhile_head_false pyIsSpace l a (t ++ tail)
      rw [← htail]
      rfl
    rw [List.dropWhile_cons, hhead]
    simp only [Bool.false_eq_true, if_false]
    rw [← hs, rstripP_idem]

/-! ## Lemmas: splitParams and URL parsing -/

theorem splitParams_nil : splitParams [] = [] := rfl

theorem splitParams_of_not_mem (p : List Char) (h : ';' ∉ p) : splitParams p = p := by
  unfold splitParams
  have : p.contains ';' = false := by
    rw [← Bool.not_eq_true, List.elem_iff]
    exact h
  rw [this]
  simp

theorem parse_http (r : List Char) :
    pyUrlparse ("http://".data ++ r) = parseTail ("http".data) r := rfl

theorem parse_https (r : List Char) :
    pyUrlparse ("https://".data ++ r) = parseTail ("https".data) r := rfl

theorem parseTail_assembled (scheme netloc path : List Char)
    (qopt fopt : Option (List Char))
    (hn : ∀ c ∈ netloc, notUrlDelim c = true)
    (hpath : path = [] ∨ path.head? = some '/')
    (hp1 : '?' ∉ path) (hp2 : '#' ∉ path)
    (hq : '#' ∉ qopt.getD []) :
    parseTail scheme (netloc ++ (path ++ (optPart '?' qopt ++ optPart '#' fopt))) =
      { scheme := scheme, netloc := netloc, path := splitParams path,
        query := qopt.getD [], fragment := fopt.getD [] } := by
  have hR : (path ++ (optPart '?' qopt ++ optPart '#' fopt)).takeWhile notUrlDelim = []
      ∧ (path ++ (optPart '?' qopt ++ optPart '#' fopt)).dropWhile notUrlDelim
        = path ++ (optPart '?' qopt ++ optPart '#' fopt) := by
    rcases hpath with hnil | hhead
    · subst hnil
      cases qopt with
      | some q =>
        constructor <;> simp [optPart, List.takeWhile_cons, List.dropWhile_cons, notUrlDelim]
      | none =>
        cases fopt with
        | some f =>
          constructor <;> simp [optPart, List.takeWhile_cons, List.dropWhile_cons, notUrlDelim]
        | none => exact ⟨rfl, rfl⟩
    · cases path with
      | nil => cases hhead
      | cons c t =>
        have hc : c = '/' := by simpa using hhead
        subst hc
        constructor <;> simp [List.takeWhile_cons, List.dropWhile_cons, notUrlDelim]
  have hsharp : '#' ∉ path ++ optPart '?' qopt := by
    intro hmem
    rcases List.mem_append.mp hmem with h | h
    · exact hp2 h
    · cases qopt with
      | none => cases h
      | some q =>
        rcases List.mem_cons.mp h with h | h
        · exact absurd h (by decide)
        · exact hq (by simpa using h)
  have hcut1 : cutAt '#' (path ++ (optPart '?' qopt ++ optPart '#' fopt))
      = (path ++ optPart '?' qopt, fopt) := by
    cases fopt with
    | none =>
      have := cutAt_not_mem '#' (path ++ optPart '?' qopt) hsharp
      simpa [optPart, List.append_assoc] using this
    | some f =>
      have := cutAt_append '#' (path ++ optPart '?' qopt) f hsharp
      rw [List.append_assoc] at this
      simpa [optPart] using this
  have hcut2 : cutAt '?' (path ++ optPart '?' qopt) = (path, qopt) := by
    cases qopt with
    | none =>
      have := cutAt_not_mem '?' path hp1
      simpa [optPart] using this
    | some q =>
      have := cutAt_append '?' path q hp1
      simpa [optPart] using this
  simp only [parseTail]
  rw [takeWhile_append_all _ _ _ hn, dropWhile_append_all _ _ _ hn, hR.1, hR.2,
    List.append_nil, hcut1, hcut2]

theorem pyUrlparse_assembled (sch netloc path : List Char)
    (qopt fopt : Option (List Char))
    (hs : sch = "http".data ∨ sch = "https".data)
    (hn : ∀ c ∈ netloc, notUrlDelim c = true)
    (hpath : path = [] ∨ path.head? = some '/')
    (hp1 : '?' ∉ path) (hp2 : '#' ∉ path)
    (hq : '#' ∉ qopt.getD []) :
    pyUrlparse (sch ++ (schemeMarker ++ (netloc ++ (path ++ (optPart '?' qopt ++ optPart '#' fopt)))))
      = { scheme := sch, netloc := netloc, path := splitParams path,
          query := qopt.getD [], fragment := fopt.getD [] } := by
  rcases hs with h | h <;> subst h
  · show pyUrlparse ("http://".data ++ (netloc ++ (path ++ (optPart '?' qopt ++ optPart '#' fopt)))) = _
    rw [parse_http]
    exact parseTail_assembled _ _ _ _ _ hn hpath hp1 hp2 hq
  · show pyUrlparse ("https://".data ++ (netloc ++ (path ++ (optPart '?' qopt ++ optPart '#' fopt)))) = _
    rw [parse_https]
    exact parseTail_assembled _ _ _ _ _ hn hpath hp1 hp2 hq

theorem startsWithHttp_cases (u : List Char) (h : startsWithHttp u = true) :
    (∃ r, u = "http://".data ++ r) ∨ (∃ r, u = "https://".data ++ r) := by
  unfold startsWithHttp at h
  rcases Bool.or_eq_true_iff.mp h with h | h
  · obtain ⟨r, hr⟩ := (strStarts_iff _ _).mp h
    exact Or.inl ⟨r, hr.symm⟩
  · obtain ⟨r, hr⟩ := (strStarts_iff _ _).mp h
    exact Or.inr ⟨r, hr.symm⟩

theorem cutAt_fst_not_mem (c : Char) (l : List Char) : c ∉ (cutAt c l).1 := by
  intro h
  have := List.mem_takeWhile_imp h
  simp at this

theorem mem_cutAt_fst (c : Char) (l : List Char) (a : Char) (h : a ∈ (cutAt c l).1) :
    a ∈ l := mem_of_mem_takeWhile _ _ _ h

theorem mem_cutAt_snd (c : Char) (l : List Char) (a : Char) (m : List Char)
    (hm : (cutAt c l).2 = some m) (h : a ∈ m) : a ∈ l := by
  unfold cutAt at hm
  cases hd : l.dropWhile (fun x => x ≠ c) with
  | nil =>
    simp only [hd] at hm
    cases hm
  | cons b t =>
    simp only [hd] at hm
    cases hm
    exact mem_of_mem_dropWhile _ _ _ (by rw [hd]; exact List.mem_cons_of_mem b h)

theorem rawPath_head (r : List Char) :
    (cutAt '?' (cutAt '#' (r.dropWhile notUrlDelim)).1).1 = []
      ∨ (cutAt '?' (cutAt '#' (r.dropWhile notUrlDelim)).1).1.head? = some '/' := by
  cases hd : r.dropWhile notUrlDelim with
  | nil => left; rfl
  | cons d t =>
    have hdf : notUrlDelim d = false := dropWhile_head_false _ _ _ _ hd
    have hcase : d = '/' ∨ d = '?' ∨ d = '#' := by
      by_contra hc
      push_neg at hc
      simp [notUrlDelim, hc.1, hc.2.1, hc.2.2] at hdf
    rcases hcase with h | h | h <;> subst h
    · right; rfl
    · left; rfl
    · left; rfl

theorem ite_rstripSlash (P : List Char) :
    (if P = [] then [] else rstripSlash P) = rstripSlash P := by
  by_cases h : P = []
  · subst h; rfl
  · rw [if_neg h]

theorem parseTail_fields (sch r : List Char) :
    ∃ nl p0 q,
      parseTail sch r =
          { scheme := sch, netloc := nl, path := splitParams p0, query := q,
            fragment := (cutAt '#' (r.dropWhile notUrlDelim)).2.getD [] } ∧
        (∀ c ∈ nl, notUrlDelim c = true) ∧
        (p0 = [] ∨ p0.head? = some '/') ∧ '?' ∉ p0 ∧ '#' ∉ p0 ∧ '#' ∉ q ∧
        (∀ c, c ∈ nl ∨ c ∈ p0 ∨ c ∈ q → c ∈ r) := by
  refine ⟨r.takeWhile notUrlDelim, (cutAt '?' (cutAt '#' (r.dropWhile notUrlDelim)).1).1,
    (cutAt '?' (cutAt '#' (r.dropWhile notUrlDelim)).1).2.getD [], rfl,
    ?_, rawPath_head r, ?_, ?_, ?_, ?_⟩
  · exact fun c hc => List.mem_takeWhile_imp hc
  · exact cutAt_fst_not_mem '?' _
  · intro hmem
    exact cutAt_fst_not_mem '#' _ (mem_cutAt_fst '?' _ _ hmem)
  · cases hq : (cutAt '?' (cutAt '#' (r.dropWhile notUrlDelim)).1).2 with
    | none => simp [hq]
    | some m =>
      intro hmem
      exact cutAt_fst_not_mem '#' _ (mem_cutAt_snd '?' _ _ m hq (by simpa using hmem))
  · intro c hc
    rcases hc with hc | hc | hc
    · exact mem_of_mem_takeWhile _ _ _ hc
    · exact mem_of_mem_dropWhile _ _ _ (mem_cutAt_fst '#' _ _ (mem_cutAt_fst '?' _ _ hc))
    · cases hq : (cutAt '?' (cutAt '#' (r.dropWhile notUrlDelim)).1).2 with
      | none => rw [hq] at hc; simp at hc
      | some m =>
        rw [hq] at hc
        simp only [Option.getD_some] at hc
        exact mem_of_mem_dropWhile _ _ _
          (mem_cutAt_fst '#' _ _ (mem_cutAt_snd '?' _ _ m hq hc))

/-! ## Lemmas: shape of normalize_url and normalize_feed_url -/

theorem normalize_url_nil : normalize_url [] = [] := rfl

theorem normalize_url_shape (u : List Char) (h : u ≠ []) :
    ∃ sch r : List Char, (sch = "http".data ∨ sch = "https".data) ∧
      normalize_url u = sch ++ schemeMarker ++ rstripSlash (r.takeWhile notUrlDelim) := by
  unfold normalize_url
  rw [if_neg h]
  cases hw : startsWithHttp u with
  | true =>
    rcases startsWithHttp_cases u hw with ⟨r, hr⟩ | ⟨r, hr⟩
    · refine ⟨"http".data, r, Or.inl rfl, ?_⟩
      subst hr
      show (pyUrlparse ("http://".data ++ r)).scheme ++ schemeMarker ++
        rstripSlash (pyUrlparse ("http://".data ++ r)).netloc = _
      rw [parse_http]
      rfl
    · refine ⟨"https".data, r, Or.inr rfl, ?_⟩
      subst hr
      show (pyUrlparse ("https://".data ++ r)).scheme ++ schemeMarker ++
        rstripSlash (pyUrlparse ("https://".data ++ r)).netloc = _
      rw [parse_https]
      rfl
  | false =>
    refine ⟨"https".data, u, Or.inr rfl, ?_⟩
    show (pyUrlparse ("https://".data ++ u)).scheme ++ schemeMarker ++
      rstripSlash (pyUrlparse ("https://".data ++ u)).netloc = _
    rw [parse_https]
    rfl

theorem parse_normalize_url (u : List Char) (h : u ≠ []) :
    ∃ sch nl : List Char, (sch = "http".data ∨ sch = "https".data) ∧
      (∀ c ∈ nl, notUrlDelim c = true) ∧
      normalize_url u = sch ++ schemeMarker ++ nl ∧
      pyUrlparse (normalize_url u) =
        { scheme := sch, netloc := nl, path := [], query := [], fragment := [] } := by
  obtain ⟨sch, r, hsch, heq⟩ := normalize_url_shape u h
  refine ⟨sch, rstripSlash (r.takeWhile notUrlDelim), hsch, ?_, heq, ?_⟩
  · exact fun c hc => List.mem_takeWhile_imp (mem_of_mem_rstripP _ _ _ hc)
  · rw [heq]
    have hass := pyUrlparse_assembled sch (rstripSlash (r.takeWhile notUrlDelim)) [] none none
      hsch (fun c hc => List.mem_takeWhile_imp (mem_of_mem_rstripP _ _ _ hc))
      (Or.inl rfl) (by simp) (by simp) (by simp)
    simpa [optPart, List.append_assoc] using hass

theorem parse_normalize_url_origin (u : List Char) :
    (pyUrlparse (normalize_url u)).path = [] ∧ (pyUrlparse (normalize_url u)).query = []
      ∧ (pyUrlparse (normalize_url u)).fragment = [] := by
  by_cases h : u = []
  · subst h
    exact ⟨rfl, rfl, rfl⟩
  · obtain ⟨sch, nl, _, _, _, hp⟩ := parse_normalize_url u h
    rw [hp]
    exact ⟨rfl, rfl, rfl⟩

theorem normalize_feed_url_eq (y : List Char) :
    normalize_feed_url y =
      if y = [] then none
      else if pyStrip y = [] then none
      else some (reassemble (pyUrlparse
        (if startsWithHttp (pyStrip y) then pyStrip y else ("https://".data) ++ pyStrip y))) := rfl

theorem reassemble_eq (p : UrlParts) :
    reassemble p = p.scheme ++ schemeMarker ++ p.netloc ++ rstripSlash p.path ++
      optPart '?' (if p.query = [] then none else some p.query) := by
  unfold reassemble
  rw [ite_rstripSlash]
  by_cases h : p.query = [] <;> simp [h, optPart]

theorem normalize_feed_url_none_iff (y : List Char) :
    normalize_feed_url y = none ↔ pyStrip y = [] := by
  rw [normalize_feed_url_eq]
  by_cases hy : y = []
  · subst hy
    simp [pyStrip_nil]
  · rw [if_neg hy]
    by_cases ht : pyStrip y = []
    · rw [if_pos ht]
      simp [ht]
    · rw [if_neg ht]
      simp [ht]

theorem normalize_feed_url_shape (y x : List Char) (h : normalize_feed_url y = some x) :
    ∃ sch nl p0 q : List Char,
      (sch = "http".data ∨ sch = "https".data) ∧
      (∀ c ∈ nl, notUrlDelim c = true) ∧
      (p0 = [] ∨ p0.head? = some '/') ∧ '?' ∉ p0 ∧ '#' ∉ p0 ∧ '#' ∉ q ∧
      x = sch ++ schemeMarker ++ nl ++ rstripSlash (splitParams p0) ++
          optPart '?' (if q = [] then none else some q) ∧
      (';' ∉ y → ';' ∉ nl ∧ ';' ∉ p0 ∧ ';' ∉ q) := by
  rw [normalize_feed_url_eq] at h
  by_cases hy : y = []
  · rw [if_pos hy] at h
    cases h
  rw [if_neg hy] at h
  by_cases ht : pyStrip y = []
  · rw [if_pos ht] at h
    cases h
  rw [if_neg ht] at h
  have hx := (Option.some.inj h).symm
  have hucase : ∃ sch r : List Char, (sch = "http".data ∨ sch = "https".data) ∧
      pyUrlparse (if startsWithHttp (pyStrip y) then pyStrip y else ("https://".data) ++ pyStrip y)
        = parseTail sch r ∧ (';' ∈ r → ';' ∈ pyStrip y) := by
    cases hw : startsWithHttp (pyStrip y) with
    | true =>
      rcases startsWithHttp_cases _ hw with ⟨r, hr⟩ | ⟨r, hr⟩
      · refine ⟨"http".data, r, Or.inl rfl, ?_, ?_⟩
        · show pyUrlparse (pyStrip y) = _
          rw [hr, parse_http]
        · intro hs
          rw [hr]
          simp [List.mem_append, hs]
      · refine ⟨"https".data, r, Or.inr rfl, ?_, ?_⟩
        · show pyUrlparse (pyStrip y) = _
          rw [hr, parse_https]
        · intro hs
          rw [hr]
          simp [List.mem_append, hs]
    | false =>
      refine ⟨"https".data, pyStrip y, Or.inr rfl, ?_, fun hs => hs⟩
      show pyUrlparse ("https://".data ++ pyStrip y) = _
      rw [parse_https]
  obtain ⟨sch, r, hsch, hparse, hsemi⟩ := hucase
  rw [hparse] at hx
  obtain ⟨nl, p0, q, hfields, hn, hhead, hq1, hq2, hq3, hmem⟩ := parseTail_fields sch r
  rw [hfields, reassemble_eq] at hx
  refine ⟨sch, nl, p0, q, hsch, hn, hhead, hq1, hq2, hq3, hx, ?_⟩
  intro hy2
  have hr : ';' ∉ r := fun hmem2 => hy2 (mem_of_mem_pyStrip _ _ (hsemi hmem2))
  exact ⟨fun hc => hr (hmem _ (Or.inl hc)), fun hc => hr (hmem _ (Or.inr (Or.inl hc))),
    fun hc => hr (hmem _ (Or.inr (Or.inr hc)))⟩

theorem head?_of_pfx (l1 l2 : List Char) (h : l1 <+: l2) (hne : l1 ≠ []) :
    l1.head? = l2.head? := by
  obtain ⟨t, rfl⟩ := h
  cases l1 with
  | nil => exact absurd rfl hne
  | cons a s => rfl

theorem strStarts_refl_append (pre rest : List Char) :
    strStarts pre (pre ++ rest) = true := by
  induction pre with
  | nil => rfl
  | cons a t ih => simp [strStarts, ih]

theorem rstripSlash_idem (l : List Char) : rstripSlash (rstripSlash l) = rstripSlash l :=
  rstripP_idem _ l

theorem normalize_feed_url_fix (y x : List Char) (hsemi : ';' ∉ y)
    (h : normalize_feed_url y = some x) (hstrip : pyStrip x = x) :
    normalize_feed_url x = some x := by
  obtain ⟨sch, nl, p0, q, hsch, hn, hhead, hq1, hq2, hq3, hx, hfree⟩ :=
    normalize_feed_url_shape y x h
  obtain ⟨hnl, hp0, hq⟩ := hfree hsemi
  have hsp : splitParams p0 = p0 := splitParams_of_not_mem p0 hp0
  rw [hsp] at hx
  have hpath1sub : ∀ c ∈ rstripSlash p0, c ∈ p0 := fun c hc => mem_of_mem_rstripP _ _ _ hc
  have hp1a : '?' ∉ rstripSlash p0 := fun hc => hq1 (hpath1sub _ hc)
  have hp1b : '#' ∉ rstripSlash p0 := fun hc => hq2 (hpath1sub _ hc)
  have hp1semi : ';' ∉ rstripSlash p0 := fun hc => hp0 (hpath1sub _ hc)
  have hp1head : rstripSlash p0 = [] ∨ (rstripSlash p0).head? = some '/' := by
    by_cases hnil : rstripSlash p0 = []
    · exact Or.inl hnil
    · right
      have hpref : rstripSlash p0 <+: p0 := rstripP_pfx _ _
      have hp0ne : p0 ≠ [] := by
        intro h0
        rw [h0] at hnil
        exact hnil rfl
      rcases hhead with h0 | h0
      · exact absurd h0 hp0ne
      · rw [head?_of_pfx _ _ hpref hnil, h0]
  have hqopt : '#' ∉ (if q = [] then none else some q).getD ([] : List Char) := by
    by_cases hq0 : q = [] <;> simp [hq0, hq3]
  have hass := pyUrlparse_assembled sch nl (rstripSlash p0) (if q = [] then none else some q)
    none hsch hn hp1head hp1a hp1b hqopt
  have hxX : x = sch ++ (schemeMarker ++ (nl ++ (rstripSlash p0 ++
      (optPart '?' (if q = [] then none else some q) ++ optPart '#' none)))) := by
    rw [hx]
    simp [optPart, List.append_assoc]
  have hxne : x ≠ [] := by
    rw [hxX]
    intro hcon
    rcases List.append_eq_nil.mp hcon with ⟨h1, _⟩
    rcases hsch with hh | hh <;> rw [hh] at h1 <;> cases h1
  have hsw : startsWithHttp x = true := by
    rcases hsch with hh | hh <;> rw [hh] at hxX
    · rw [hxX]
      show startsWithHttp ("http://".data ++
        (nl ++ (rstripSlash p0 ++
          (optPart '?' (if q = [] then none else some q) ++ optPart '#' none)))) = true
      unfold startsWithHttp
      rw [strStarts_refl_append]
      rfl
    · rw [hxX]
      show startsWithHttp ("https://".data ++
        (nl ++ (rstripSlash p0 ++
          (optPart '?' (if q = [] then none else some q) ++ optPart '#' none)))) = true
      unfold startsWithHttp
      rw [strStarts_refl_append]
      simp
  rw [normalize_feed_url_eq, if_neg hxne, hstrip, if_neg hxne, if_pos hsw]
  have hgoal : pyUrlparse x =
      { scheme := sch, netloc := nl, path := splitParams (rstripSlash p0),
        query := (if q = [] then none else some q).getD [],
        fragment := (none : Option (List Char)).getD [] } := by
    rw [hxX]
    exact hass
  rw [hgoal, reassemble_eq]
  simp only []
  rw [splitParams_of_not_mem _ hp1semi]
  show some (sch ++ schemeMarker ++ nl ++ rstripSlash (rstripSlash p0) ++ _) = some x
  rw [rstripSlash_idem]
  rw [hx]
  by_cases hq0 : q = [] <;> simp [hq0, optPart]

/-! ## Lemmas: sorting, dedup, split, join -/

theorem pySort_perm (l : List (List Char)) : (pySort l).Perm l :=
  List.perm_insertionSort _ l

theorem pySort_sorted (l : List (List Char)) : List.Sorted (fun a b => a ≤ b) (pySort l) :=
  List.sorted_insertionSort _ l

theorem pySort_of_sorted (l : List (List Char)) (h : List.Sorted (fun a b => a ≤ b) l) :
    pySort l = l :=
  h.insertionSort_eq

theorem mem_pySort (l : List (List Char)) (x : List Char) : x ∈ pySort l ↔ x ∈ l :=
  (pySort_perm l).mem_iff

theorem mem_dedupFrom (seen l : List (List Char)) (x : List Char) :
    x ∈ dedupFrom seen l ↔ x ∈ l ∧ x ∉ seen := by
  induction l generalizing seen with
  | nil => simp [dedupFrom]
  | cons a t ih =>
    unfold dedupFrom
    by_cases ha : a ∈ seen
    · rw [if_pos ha, ih]
      constructor
      · rintro ⟨h1, h2⟩
        exact ⟨List.mem_cons_of_mem _ h1, h2⟩
      · rintro ⟨h1, h2⟩
        rcases List.mem_cons.mp h1 with rfl | h1
        · exact absurd ha h2
        · exact ⟨h1, h2⟩
    · rw [if_neg ha]
      constructor
      · intro hmem
        rcases List.mem_cons.mp hmem with rfl | hmem
        · exact ⟨List.mem_cons_self _ _, ha⟩
        · have h3 := (ih (a :: seen)).mp hmem
          exact ⟨List.mem_cons_of_mem _ h3.1, fun hx => h3.2 (List.mem_cons_of_mem _ hx)⟩
      · rintro ⟨h1, h2⟩
        rcases List.mem_cons.mp h1 with rfl | h1
        · exact List.mem_cons_self _ _
        · by_cases hxa : x = a
          · subst hxa
            exact List.mem_cons_self _ _
          · refine List.mem_cons_of_mem _ ((ih _).mpr ⟨h1, ?_⟩)
            intro hx
            exact (List.mem_cons.mp hx).elim hxa h2

theorem mem_dedupKeys (l : List (List Char)) (x : List Char) : x ∈ dedupKeys l ↔ x ∈ l := by
  unfold dedupKeys
  rw [mem_dedupFrom]
  simp

theorem dedupFrom_nodup (seen l : List (List Char)) : (dedupFrom seen l).Nodup := by
  induction l generalizing seen with
  | nil => exact List.nodup_nil
  | cons a t ih =>
    unfold dedupFrom
    by_cases ha : a ∈ seen
    · rw [if_pos ha]
      exact ih seen
    · rw [if_neg ha]
      refine List.nodup_cons.mpr ⟨?_, ih _⟩
      intro hmem
      exact ((mem_dedupFrom _ _ _).mp hmem).2 (List.mem_cons_self a seen)

theorem dedupKeys_nodup (l : List (List Char)) : (dedupKeys l).Nodup := dedupFrom_nodup [] l

theorem dedupFrom_of_nodup (seen l : List (List Char)) (h : l.Nodup)
    (hd : ∀ x ∈ l, x ∉ seen) : dedupFrom seen l = l := by
  induction l generalizing seen with
  | nil => rfl
  | cons a t ih =>
    unfold dedupFrom
    rw [if_neg (hd a (List.mem_cons_self _ _))]
    congr 1
    apply ih _ (List.nodup_cons.mp h).2
    intro x hx hmem
    rcases List.mem_cons.mp hmem with rfl | hmem
    · exact (List.nodup_cons.mp h).1 hx
    · exact hd x (List.mem_cons_of_mem _ hx) hmem

theorem dedupKeys_of_nodup (l : List (List Char)) (h : l.Nodup) : dedupKeys l = l :=
  dedupFrom_of_nodup [] l h (by simp)

theorem pySplit_ne_nil (c : Char) (l : List Char) : pySplit c l ≠ [] := by
  cases l with
  | nil => simp [pySplit]
  | cons a rest =>
    unfold pySplit
    by_cases h : a = c
    · simp [h]
    · rw [if_neg h]
      cases pySplit c rest <;> simp

theorem mem_pySplit_not_sep (c : Char) (l : List Char) :
    ∀ piece ∈ pySplit c l, c ∉ piece := by
  induction l with
  | nil =>
    intro piece hp
    simp only [pySplit, List.mem_singleton] at hp
    subst hp
    simp
  | cons a rest ih =>
    intro piece hp
    unfold pySplit at hp
    by_cases h : a = c
    · rw [if_pos h] at hp
      rcases List.mem_cons.mp hp with rfl | hp
      · simp
      · exact ih piece hp
    · rw [if_neg h] at hp
      cases hps : pySplit c rest with
      | nil => exact absurd hps (pySplit_ne_nil c rest)
      | cons p ps =>
        rw [hps] at hp
        rcases List.mem_cons.mp hp with rfl | hp
        · intro hmem
          rcases List.mem_cons.mp hmem with heq | hmem
          · exact h heq.symm
          · exact ih p (by rw [hps]; exact List.mem_cons_self _ _) hmem
        · exact ih piece (by rw [hps]; exact List.mem_cons_of_mem _ hp)

theorem pySplit_no_sep (c : Char) (x : List Char) (h : c ∉ x) : pySplit c x = [x] := by
  induction x with
  | nil => rfl
  | cons a t ih =>
    have ha : a ≠ c := fun e => h (by simp [e])
    unfold pySplit
    rw [if_neg ha, ih (fun m => h (List.mem_cons_of_mem _ m))]

theorem pySplit_cons_head (c a : Char) (l : List Char) (ha : a ≠ c) :
    ∃ p ps, pySplit c l = p :: ps ∧ pySplit c (a :: l) = (a :: p) :: ps := by
  cases hps : pySplit c l with
  | nil => exact absurd hps (pySplit_ne_nil c l)
  | cons p ps =>
    refine ⟨p, ps, rfl, ?_⟩
    unfold pySplit
    rw [if_neg ha, hps]

theorem pySplit_append_sep (c : Char) (x r : List Char) (hx : c ∉ x) :
    pySplit c (x ++ c :: r) = x :: pySplit c r := by
  induction x with
  | nil => simp [pySplit]
  | cons a t ih =>
    have ha : a ≠ c := fun e => hx (by simp [e])
    have ht : c ∉ t := fun m => hx (List.mem_cons_of_mem _ m)
    obtain ⟨p, ps, h1, h2⟩ := pySplit_cons_head c a (t ++ c :: r) ha
    show pySplit c (a :: (t ++ c :: r)) = (a :: t) :: pySplit c r
    rw [h2]
    rw [ih ht] at h1
    cases h1
    rfl

theorem joinSemiSpace_split (xs : List (List Char)) (x : List Char)
    (hfree : ∀ e ∈ x :: xs, ';' ∉ e) :
    pySplit ';' (joinSemiSpace (x :: xs)) = x :: xs.map (fun e => ' ' :: e) := by
  induction xs generalizing x with
  | nil =>
    show pySplit ';' x = [x]
    exact pySplit_no_sep ';' x (hfree x (by simp))
  | cons y t ih =>
    show pySplit ';' (x ++ ';' :: ' ' :: joinSemiSpace (y :: t)) = x :: (' ' :: y) :: t.map _
    rw [pySplit_append_sep _ _ _ (hfree x (by simp))]
    have hih := ih y (fun e he => hfree e (by
      rcases List.mem_cons.mp he with rfl | he
      · simp
      · simp [he]))
    obtain ⟨p, ps, h1, h2⟩ := pySplit_cons_head ';' ' ' (joinSemiSpace (y :: t)) (by decide)
    rw [hih] at h1
    cases h1
    rw [h2]

/-! ## Lemmas: properties of normalizer outputs -/

theorem lastSegment_subset (p : List Char) : ∀ c ∈ lastSegment p, c ∈ p := by
  intro c hc
  unfold lastSegment at hc
  rw [List.mem_reverse] at hc
  have hm := mem_of_mem_takeWhile _ _ _ hc
  rwa [List.mem_reverse] at hm

theorem splitParams_subset (p : List Char) : ∀ c ∈ splitParams p, c ∈ p := by
  intro c hc
  simp only [splitParams] at hc
  by_cases h1 : p.contains ';'
  · rw [if_pos h1] at hc
    by_cases h2 : p.contains '/'
    · rw [if_pos h2] at hc
      by_cases h3 : (lastSegment p).contains ';'
      · rw [if_pos h3] at hc
        rcases List.mem_append.mp hc with hc | hc
        · exact List.take_subset _ _ hc
        · exact lastSegment_subset p c (mem_of_mem_takeWhile _ _ _ hc)
      · rw [if_neg h3] at hc
        exact hc
    · rw [if_neg h2] at hc
      exact mem_of_mem_takeWhile _ _ _ hc
  · rw [if_neg h1] at hc
    exact hc

theorem normalize_feed_url_head (y x : List Char) (h : normalize_feed_url y = some x) :
    x ≠ [] ∧ x.head? = some 'h' ∧ (';' ∉ y → ';' ∉ x) := by
  obtain ⟨sch, nl, p0, q, hsch, hn, hhead, hq1, hq2, hq3, hx, hfree⟩ :=
    normalize_feed_url_shape y x h
  have hhd : x.head? = some 'h' := by
    rcases hsch with hh | hh <;> rw [hx, hh] <;> rfl
  refine ⟨?_, hhd, ?_⟩
  · intro hcon
    rw [hcon] at hhd
    cases hhd
  · intro hy
    obtain ⟨hnl, hp0, hq⟩ := hfree hy
    rw [hx]
    intro hcon
    simp only [List.mem_append] at hcon
    rcases hcon with ((((hc | hc) | hc) | hc) | hc)
    · rcases hsch with hh | hh <;> rw [hh] at hc <;> exact absurd hc (by decide)
    · exact absurd hc (by decide)
    · exact hnl hc
    · exact hp0 (splitParams_subset _ _ (mem_of_mem_rstripP _ _ _ hc))
    · by_cases hq0 : q = []
      · rw [if_pos hq0] at hc
        simp [optPart] at hc
      · rw [if_neg hq0] at hc
        simp only [optPart] at hc
        rcases List.mem_cons.mp hc with heq | hc2
        · exact absurd heq (by decide)
        · exact hq hc2

theorem normalize_feed_list_eq (rss : List Char) (h1 : rss ≠ []) (h2 : rss ≠ notFoundStr) :
    normalize_feed_list rss
      = pySort (dedupKeys ((pySplit ';' rss).filterMap normalize_feed_url)) := by
  unfold normalize_feed_list
  rw [if_neg (by simp [h1, h2])]

theorem mem_normalize_feed_list (s x : List Char) :
    x ∈ normalize_feed_list s ↔
      (s ≠ [] ∧ s ≠ notFoundStr ∧
        ∃ piece ∈ pySplit ';' s, normalize_feed_url piece = some x) := by
  by_cases h1 : s = []
  · subst h1
    simp [normalize_feed_list]
  by_cases h2 : s = notFoundStr
  · subst h2
    simp [normalize_feed_list]
  rw [normalize_feed_list_eq s h1 h2, mem_pySort, mem_dedupKeys, List.mem_filterMap]
  simp [h1, h2]

theorem normalize_feed_list_sorted (s : List Char) :
    List.Sorted (fun a b => a ≤ b) (normalize_feed_list s)
      ∧ (normalize_feed_list s).Nodup := by
  unfold normalize_feed_list
  split
  · exact ⟨List.sorted_nil, List.nodup_nil⟩
  · exact ⟨pySort_sorted _, (pySort_perm _).nodup_iff.mpr (dedupKeys_nodup _)⟩

theorem normalize_feed_list_entry (s x : List Char) (h : x ∈ normalize_feed_list s) :
    x ≠ [] ∧ x.head? = some 'h' ∧ ';' ∉ x := by
  obtain ⟨_, _, piece, hpc, hn⟩ := (mem_normalize_feed_list s x).mp h
  have hfree : ';' ∉ piece := mem_pySplit_not_sep ';' s piece hpc
  obtain ⟨hne, hhd, himp⟩ := normalize_feed_url_head piece x hn
  exact ⟨hne, hhd, himp hfree⟩

theorem normalize_feed_url_strip_arg (y : List Char) :
    normalize_feed_url (pyStrip y) = normalize_feed_url y := by
  rw [normalize_feed_url_eq, normalize_feed_url_eq]
  by_cases ht : pyStrip y = []
  · rw [ht]
    by_cases hy : y = []
    · rw [if_pos hy, if_pos rfl]
    · rw [if_neg hy, if_pos rfl, if_pos rfl]
  · have hyne : y ≠ [] := fun h0 => ht (by rw [h0]; rfl)
    rw [pyStrip_idem]
    rw [if_neg ht, if_neg ht, if_neg hyne]

theorem normalize_feed_url_cons_space (e : List Char) :
    normalize_feed_url (' ' :: e) = normalize_feed_url e := by
  rw [← normalize_feed_url_strip_arg (' ' :: e), pyStrip_cons_space ' ' e (by decide),
    normalize_feed_url_strip_arg]

theorem filterMap_all_some (f : List Char → Option (List Char)) (l : List (List Char))
    (h : ∀ e ∈ l, f e = some e) : l.filterMap f = l := by
  induction l with
  | nil => rfl
  | cons a t ih =>
    simp only [List.filterMap_cons, h a (by simp)]
    rw [ih (fun e he => h e (by simp [he]))]

theorem normalize_feed_list_idem (s : List Char)
    (hws : ∀ x ∈ normalize_feed_list s, pyStrip x = x) :
    normalize_feed_list (joinSemiSpace (normalize_feed_list s)) = normalize_feed_list s := by
  have hsn := normalize_feed_list_sorted s
  cases hout : normalize_feed_list s with
  | nil => rfl
  | cons x xs =>
    rw [hout] at hsn
    have hall : ∀ e ∈ x :: xs, e ≠ [] ∧ e.head? = some 'h' ∧ ';' ∉ e := by
      intro e he
      exact normalize_feed_list_entry s e (by rw [hout]; exact he)
    have hstrip : ∀ e ∈ x :: xs, pyStrip e = e := by
      intro e he
      exact hws e (by rw [hout]; exact he)
    have hfix : ∀ e ∈ x :: xs, normalize_feed_url e = some e := by
      intro e he
      have hmem : e ∈ normalize_feed_list s := by rw [hout]; exact he
      obtain ⟨_, _, piece, hpc, hn⟩ := (mem_normalize_feed_list s e).mp hmem
      exact normalize_feed_url_fix piece e (mem_pySplit_not_sep ';' s piece hpc) hn
        (hstrip e he)
    have hjoin_ne : joinSemiSpace (x :: xs) ≠ [] := by
      cases xs with
      | nil => exact (hall x (by simp)).1
      | cons y t =>
        show x ++ ';' :: ' ' :: joinSemiSpace (y :: t) ≠ []
        simp
    have hjoin_head : (joinSemiSpace (x :: xs)).head? = some 'h' := by
      have hx1 := (hall x (by simp)).2.1
      cases xs with
      | nil => exact hx1
      | cons y t =>
        show (x ++ ';' :: ' ' :: joinSemiSpace (y :: t)).head? = some 'h'
        cases hx2 : x with
        | nil =>
          exact absurd hx2 (hall x (by simp)).1
        | cons a t2 =>
          rw [hx2] at hx1
          exact hx1
    have hjoin_nf : joinSemiSpace (x :: xs) ≠ notFoundStr := by
      intro hcon
      rw [hcon] at hjoin_head
      exact absurd hjoin_head (by decide)
    have hsplit : pySplit ';' (joinSemiSpace (x :: xs)) = x :: xs.map (fun e => ' ' :: e) :=
      joinSemiSpace_split xs x (fun e he => (hall e he).2.2)
    have hpieces :
        (pySplit ';' (joinSemiSpace (x :: xs))).filterMap normalize_feed_url = x :: xs := by
      rw [hsplit]
      simp only [List.filterMap_cons, hfix x (by simp)]
      congr 1
      rw [List.filterMap_map]
      apply filterMap_all_some
      intro e he
      show normalize_feed_url (' ' :: e) = some e
      rw [normalize_feed_url_cons_space]
      exact hfix e (by simp [he])
    rw [normalize_feed_list_eq _ hjoin_ne hjoin_nf, hpieces,
      dedupKeys_of_nodup _ hsn.2, pySort_of_sorted _ hsn.1]

/-! ## Lemmas: the persistence layer -/

theorem dbLookup_cons (e : List Char × Option (List Char)) (t : DbRows) (k : List Char) :
    dbLookup (e :: t) k = if e.1 = k then some e.2 else dbLookup t k := by
  unfold dbLookup
  by_cases h : e.1 = k
  · rw [List.find?_cons_of_pos _ (by simp [h]), if_pos h]
    rfl
  · rw [List.find?_cons_of_neg _ (by simp [h]), if_neg h]

theorem lookup_map_update_other (db : DbRows) (k : List Char) (v : Option (List Char))
    (k' : List Char) (hk : k' ≠ k) :
    dbLookup (db.map (fun e => if e.1 == k then (k, v) else e)) k' = dbLookup db k' := by
  induction db with
  | nil => rfl
  | cons e t ih =>
    simp only [List.map_cons]
    by_cases he : (e.1 == k) = true
    · have he2 : e.1 = k := by simpa using he
      rw [if_pos he, dbLookup_cons, dbLookup_cons, ih,
        if_neg (fun hc => hk hc.symm), if_neg (fun hc => hk (hc.symm.trans he2))]
    · rw [if_neg he, dbLookup_cons, dbLookup_cons, ih]

theorem lookup_map_update_same (db : DbRows) (k : List Char) (v : Option (List Char))
    (h : (List.find? (fun e => e.1 == k) db).isSome = true) :
    dbLookup (db.map (fun e => if e.1 == k then (k, v) else e)) k = some v := by
  induction db with
  | nil => simp at h
  | cons e t ih =>
    simp only [List.map_cons]
    by_cases he : (e.1 == k) = true
    · rw [if_pos he, dbLookup_cons, if_pos rfl]
    · rw [if_neg he, dbLookup_cons, if_neg (by simpa using he)]
      apply ih
      rw [List.find?_cons_of_neg _ (by simpa using he)] at h
      exact h

theorem dbLookup_append_other (db : DbRows) (k : List Char) (v : Option (List Char))
    (k' : List Char) (hk : k' ≠ k) :
    dbLookup (db ++ [(k, v)]) k' = dbLookup db k' := by
  induction db with
  | nil =>
    show dbLookup [(k, v)] k' = none
    rw [dbLookup_cons, if_neg (fun hc => hk hc.symm)]
    rfl
  | cons e t ih =>
    show dbLookup (e :: (t ++ [(k, v)])) k' = dbLookup (e :: t) k'
    rw [dbLookup_cons, dbLookup_cons, ih]

theorem dbLookup_append_self (db : DbRows) (k : List Char) (v : Option (List Char))
    (h : dbLookup db k = none) : dbLookup (db ++ [(k, v)]) k = some v := by
  induction db with
  | nil =>
    show dbLookup [(k, v)] k = some v
    rw [dbLookup_cons, if_pos rfl]
  | cons e t ih =>
    show dbLookup (e :: (t ++ [(k, v)])) k = some v
    rw [dbLookup_cons] at h ⊢
    by_cases he : e.1 = k
    · rw [if_pos he] at h
      exact absurd h (by simp)
    · rw [if_neg he] at h ⊢
      exact ih h

theorem dbLookup_isSome_of_some (db : DbRows) (k : List Char) (o : Option (List Char))
    (h : dbLookup db k = some o) :
    (List.find? (fun e => e.1 == k) db).isSome = true := by
  unfold dbLookup at h
  cases hf : List.find? (fun e => e.1 == k) db with
  | none => rw [hf] at h; cases h
  | some e => rfl

theorem dbLookup_none_of_find_none (db : DbRows) (k : List Char)
    (h : ¬(List.find? (fun e => e.1 == k) db).isSome = true) : dbLookup db k = none := by
  unfold dbLookup
  cases hf : List.find? (fun e => e.1 == k) db with
  | none => rfl
  | some e => rw [hf] at h; simp at h

theorem dbUpsert_lookup_same (db : DbRows) (k : List Char) (v : Option (List Char)) :
    dbLookup (dbUpsert db k v) k = some v := by
  unfold dbUpsert
  by_cases h : (List.find? (fun e => e.1 == k) db).isSome = true
  · rw [if_pos h]
    exact lookup_map_update_same db k v h
  · rw [if_neg h]
    exact dbLookup_append_self db k v (dbLookup_none_of_find_none db k h)

theorem dbUpsert_lookup_other (db : DbRows) (k : List Char) (v : Option (List Char))
    (k' : List Char) (hk : k' ≠ k) :
    dbLookup (dbUpsert db k v) k' = dbLookup db k' := by
  unfold dbUpsert
  by_cases h : (List.find? (fun e => e.1 == k) db).isSome = true
  · rw [if_pos h]
    exact lookup_map_update_other db k v k' hk
  · rw [if_neg h]
    exact dbLookup_append_other db k v k' hk

theorem pyStrip_ne_nil_of_head (l : List Char) (c : Char) (hh : l.head? = some c)
    (hc : pyIsSpace c = false) : pyStrip l ≠ [] := by
  cases l with
  | nil => cases hh
  | cons a t =>
    cases hh
    unfold pyStrip
    rw [List.dropWhile_cons, hc]
    simp only [Bool.false_eq_true, if_false]
    intro hcon
    unfold rstripP at hcon
    have h2 : (c :: t).reverse.dropWhile pyIsSpace = [] := by
      have h3 := congrArg List.reverse hcon
      simpa using h3
    have h3 := List.dropWhile_eq_nil_iff.mp h2 c (by simp)
    rw [hc] at h3
    cases h3

theorem filter_ne_nil_all (l : List (List Char)) (h : ∀ e ∈ l, e ≠ []) :
    l.filter (fun u => u ≠ []) = l := by
  induction l with
  | nil => rfl
  | cons a t ih =>
    rw [List.filter_cons, if_pos (by simp [h a (by simp)]), ih (fun e he => h e (by simp [he]))]

theorem parseStoredList_join_length (x : List Char) (xs : List (List Char))
    (hall : ∀ e ∈ x :: xs, e ≠ [] ∧ e.head? = some 'h' ∧ ';' ∉ e) :
    (parseStoredList (some (joinSemiSpace (x :: xs)))).length = xs.length + 1 := by
  show (((pySplit ';' (joinSemiSpace (x :: xs))).map pyStrip).filter
    (fun u => u ≠ [])).length = _
  rw [joinSemiSpace_split xs x (fun e he => (hall e he).2.2)]
  have hstrip_ne : ∀ e ∈ (x :: xs.map (fun e => ' ' :: e)).map pyStrip, e ≠ [] := by
    intro e he
    simp only [List.map_cons, List.map_map, List.mem_cons, List.mem_map,
      Function.comp] at he
    rcases he with rfl | ⟨a, ha, rfl⟩
    · exact pyStrip_ne_nil_of_head x 'h' (hall x (by simp)).2.1 (by decide)
    · rw [pyStrip_cons_space ' ' a (by decide)]
      exact pyStrip_ne_nil_of_head a 'h' (hall a (by simp [ha])).2.1 (by decide)
  rw [filter_ne_nil_all _ hstrip_ne]
  simp

/-! ## Lemmas: batch processing -/

theorem process_all_in_order (jobs : List (SiteEnv × List Char)) :
    process_all (List.range jobs.length) jobs
      = jobs.map (fun j => process_website j.1 j.2) := by
  induction jobs with
  | nil => rfl
  | cons j t ih =>
    show (List.range (t.length + 1)).filterMap
        (fun i => ((j :: t)[i]?).map (fun p => process_website p.1 p.2))
      = _
    have hfun : ((fun i => ((j :: t)[i]?).map (fun p => process_website p.1 p.2)) ∘ Nat.succ)
        = fun i => ((t[i]?).map (fun p => process_website p.1 p.2)) := by
      funext i
      simp
    rw [List.range_succ_eq_map]
    simp only [List.filterMap_cons, List.getElem?_cons_zero, Option.map_some',
      List.filterMap_map, hfun]
    show _ :: process_all (List.range t.length) t = _
    rw [ih]
    rfl

/-! ## Lemmas: orchestration -/

theorem process_website_eq (env : SiteEnv) (url0 : List Char) :
    process_website env url0 =
      if normalize_url url0 = [] then { website := url0, rss := notFoundStr }
      else
        { website := normalize_url url0,
          rss := renderFeeds (caughtFeeds
            (if is_hub_page (normalize_url url0) then hubRoute env else finderRoute env)) } :=
  rfl

theorem normalize_url_eq_nil_iff (u : List Char) : normalize_url u = [] ↔ u = [] := by
  constructor
  · intro h
    by_contra hne
    obtain ⟨sch, nl, hsch, _, heq, _⟩ := parse_normalize_url u hne
    rw [heq] at h
    rcases List.append_eq_nil.mp h with ⟨h1, _⟩
    rcases List.append_eq_nil.mp h1 with ⟨h2, _⟩
    rcases hsch with hh | hh <;> rw [hh] at h2 <;> exact absurd h2 (by decide)
  · intro h
    rw [h]
    rfl

theorem startsWithHttp_assembled (sch rest : List Char)
    (hsch : sch = "http".data ∨ sch = "https".data) :
    startsWithHttp (sch ++ (schemeMarker ++ rest)) = true := by
  rcases hsch with h | h <;> subst h
  · show startsWithHttp ("http://".data ++ rest) = true
    unfold startsWithHttp
    rw [strStarts_refl_append]
    rfl
  · show startsWithHttp ("https://".data ++ rest) = true
    unfold startsWithHttp
    rw [strStarts_refl_append]
    simp

theorem assembled_ne_nil (sch rest : List Char)
    (hsch : sch = "http".data ∨ sch = "https".data) :
    sch ++ (schemeMarker ++ rest) ≠ [] := by
  intro hcon
  rcases List.append_eq_nil.mp hcon with ⟨h1, _⟩
  rcases hsch with h | h <;> rw [h] at h1 <;> exact absurd h1 (by decide)

theorem pyStrip_getLast_not_space (l : List Char) (c : Char)
    (h : (pyStrip l).getLast? = some c) : pyIsSpace c = false :=
  rstripP_getLast pyIsSpace (l.dropWhile pyIsSpace) c h

theorem filterMap_url_all_some (records : List FeedRecord)
    (h : ∀ r ∈ records, normalize_feed_url r.url = some r.url) :
    records.filterMap (fun f => normalize_feed_url f.url)
      = records.map (fun f => f.url) := by
  induction records with
  | nil => rfl
  | cons a t ih =>
    simp only [List.filterMap_cons, h a (by simp), List.map_cons]
    rw [ih (fun r hr => h r (by simp [hr]))]

theorem save_website_result_eq (db : DbRows) (site rss : List Char)
    (old : Option (List Char)) (hold : dbLookup db (normalize_url site) = some old) :
    save_website_result db site rss =
      if (normalize_feed_list rss).length ≤ (parseStoredList old).length then db
      else dbUpsert db (normalize_url site)
        (if normalize_feed_list rss = [] then none
         else some (joinSemiSpace (normalize_feed_list rss))) := by
  simp only [save_website_result]
  rw [hold]

theorem save_website_result_absent (db : DbRows) (site rss : List Char)
    (hold : dbLookup db (normalize_url site) = none) :
    save_website_result db site rss =
      dbUpsert db (normalize_url site)
        (if normalize_feed_list rss = [] then none
         else some (joinSemiSpace (normalize_feed_list rss))) := by
  simp only [save_website_result]
  rw [hold]

theorem storedCount_after_overwrite (db : DbRows) (site rss : List Char)
    (hne : normalize_feed_list rss ≠ []) :
    storedCount (dbUpsert db (normalize_url site)
        (some (joinSemiSpace (normalize_feed_list rss)))) (normalize_url site)
      = (normalize_feed_list rss).length := by
  unfold storedCount
  rw [dbUpsert_lookup_same]
  cases hnl : normalize_feed_list rss with
  | nil => exact absurd hnl hne
  | cons x xs =>
    show (parseStoredList (some (joinSemiSpace (x :: xs)))).length = (x :: xs).length
    rw [parseStoredList_join_length x xs
      (fun e he => normalize_feed_list_entry rss e (by rw [hnl]; exact he))]
    simp

theorem save_mono (db : DbRows) (site rss k : List Char) :
    storedCount db k ≤ storedCount (save_website_result db site rss) k := by
  cases hold : dbLookup db (normalize_url site) with
  | some old =>
    rw [save_website_result_eq db site rss old hold]
    by_cases hle : (normalize_feed_list rss).length ≤ (parseStoredList old).length
    · rw [if_pos hle]
    · rw [if_neg hle]
      have hlt : (parseStoredList old).length < (normalize_feed_list rss).length := by
        omega
      have hnl : normalize_feed_list rss ≠ [] := by
        intro h0
        rw [h0] at hlt
        simp at hlt
      rw [if_neg hnl]
      by_cases hk : k = normalize_url site
      · subst hk
        rw [storedCount_after_overwrite db site rss hnl]
        unfold storedCount
        rw [hold]
        show (parseStoredList old).length ≤ _
        omega
      · unfold storedCount
        rw [dbUpsert_lookup_other _ _ _ _ hk]
  | none =>
    rw [save_website_result_absent db site rss hold]
    by_cases hk : k = normalize_url site
    · subst hk
      unfold storedCount
      rw [hold]
      exact Nat.zero_le _
    · unfold storedCount
      rw [dbUpsert_lookup_other _ _ _ _ hk]

theorem save_batch_mono (db : DbRows) (results : List SiteResult) (k : List Char) :
    storedCount db k ≤ storedCount (save_batch_results db results) k := by
  induction results generalizing db with
  | nil => exact le_refl _
  | cons r t ih =>
    exact le_trans (save_mono db r.website r.rss k) (ih _)

theorem check_feed_ok (r : HttpResponse) :
    check_feed (.ok r) =
      if r.status_code ≠ 200 then false
      else if feedCtypeMarkers.any (fun t => containsSub t (pyLower r.content_type)) then true
      else feedBodyMarkers.any (fun m => containsSub m (pyLower (r.text.take 500))) := rfl

/-! ## Claim theorems -/

/-- C3: the feed validator never raises — a failed fetch classifies the URL as
not-a-feed (false); any non-200 status yields false regardless of body; with a
200 status, a Content-Type containing `xml`, `rss` or `atom` (case-insensitive
substring) yields true; otherwise the result is true exactly when one of the
literal markers `<rss`, `<feed`, `<?xml`, `<atom` occurs in the lower-cased
first 500 characters of the body. -/
theorem c3_feed_validator_classification :
    (check_feed .exn = false)
    ∧ (∀ r : HttpResponse, r.status_code ≠ 200 → check_feed (.ok r) = false)
    ∧ (∀ r : HttpResponse, r.status_code = 200 →
        (∃ t ∈ feedCtypeMarkers, containsSub t (pyLower r.content_type) = true) →
        check_feed (.ok r) = true)
    ∧ (∀ r : HttpResponse, r.status_code = 200 →
        (∀ t ∈ feedCtypeMarkers, containsSub t (pyLower r.content_type) = false) →
        (check_feed (.ok r) = true ↔
          ∃ m ∈ feedBodyMarkers, containsSub m (pyLower (r.text.take 500)) = true)) := by
  refine ⟨rfl, ?_, ?_, ?_⟩
  · intro r h
    rw [check_feed_ok, if_pos h]
  · rintro r h200 ⟨t, ht, hc⟩
    rw [check_feed_ok, if_neg (by simp [h200]), if_pos (List.any_eq_true.mpr ⟨t, ht, hc⟩)]
  · intro r h200 hnone
    rw [check_feed_ok, if_neg (by simp [h200]), if_neg (fun hcon => by
      obtain ⟨t, ht, hc⟩ := List.any_eq_true.mp hcon
      rw [hnone t ht] at hc
      cases hc)]
    exact List.any_eq_true

theorem c3_feed_validator_classification_witness :
    check_feed (.ok ⟨404, "text/xml".data, "<rss version=2>".data⟩) = false
    ∧ check_feed (.ok ⟨200, "Application/RSS+XML".data, []⟩) = true
    ∧ check_feed (.ok ⟨200, "text/html".data, "<html><body><rss>".data⟩) = true :=
  ⟨c3_feed_validator_classification.2.1 _ (by decide),
   c3_feed_validator_classification.2.2.1 _ rfl ⟨"rss".data, by decide, by decide⟩,
   (c3_feed_validator_classification.2.2.2 _ rfl (by decide)).mpr
     ⟨"<rss".data, by decide, by decide⟩⟩

/-- C7: `looks_like_hub_page` classifies a body as a hub page exactly when at
least 2 of the hub-indicator phrases occur in the lower-cased body, or the
combined occurrence count of the feed-link-like substrings `.xml`,
`href="/feed`, `href="/rss`, `atom.xml` is at least 3; in particular it is
true for a body with 2 distinct indicators and no `.xml`, true for a body with
no indicators but 3 `.xml` occurrences, and false for a body with 1 indicator
and 2 link-like occurrences. -/
theorem c7_looks_like_hub_page :
    (∀ body : List Char, looks_like_hub_page body = true ↔
        (2 ≤ hubIndicators.countP (fun i => containsSub i (pyLower body))
          ∨ 3 ≤ countSub (".xml".data) (pyLower body)
              + countSub ("href=\"/feed".data) (pyLower body)
              + countSub ("href=\"/rss".data) (pyLower body)
              + countSub ("atom.xml".data) (pyLower body)))
    ∧ looks_like_hub_page ("subscribe to our feed url here".data) = true
    ∧ looks_like_hub_page ("a.xml b.xml c.xml".data) = true
    ∧ looks_like_hub_page ("subscribe to x.xml y.xml".data) = false := by
  refine ⟨?_, by decide, by decide, by decide⟩
  intro body
  unfold looks_like_hub_page
  rw [Bool.or_eq_true, decide_eq_true_eq, decide_eq_true_eq,
    List.countP_eq_length_filter]

/-- C9: the orchestrator hands `find_feeds` the origin-only normalized site
URL, whose parsed path component is empty, and on such a URL the nested-path
strategy is the empty list: inside `find_feeds (normalize_url raw)` the
nested-path contribution `try_nested_paths env base parsed` (with
`base = normalize_url url` and `parsed = pyUrlparse url`) is `[]` for every
raw input and every fetch environment. -/
theorem c9_nested_paths_empty :
    ∀ (env : FinderEnv) (raw : List Char),
      (pyUrlparse (normalize_url raw)).path = []
      ∧ try_nested_paths env (normalize_url (normalize_url raw))
          (pyUrlparse (normalize_url raw)) = [] := by
  intro env raw
  have hp := (parse_normalize_url_origin raw).1
  refine ⟨hp, ?_⟩
  unfold try_nested_paths
  rw [if_pos (by simp [hp])]

/-- C10: when normalization of the input site URL is falsy the per-site result
keeps the original raw input (which is not a normalized SiteURL) in its
`website` field together with the `Not found` sentinel; on every other path
the `website` field is the normalized origin-only URL. -/
theorem c10_invalid_input_website_field :
    ∀ (env : SiteEnv) (url0 : List Char),
      (normalize_url url0 = [] →
        (process_website env url0).website = url0
        ∧ isNormalizedSiteURL ((process_website env url0).website) = false
        ∧ (process_website env url0).rss = notFoundStr)
      ∧ (normalize_url url0 ≠ [] →
        (process_website env url0).website = normalize_url url0) := by
  intro env url0
  constructor
  · intro h
    have h0 : url0 = [] := (normalize_url_eq_nil_iff url0).mp h
    subst h0
    exact ⟨rfl, show isNormalizedSiteURL [] = false from by decide, rfl⟩
  · intro h
    rw [process_website_eq, if_neg h]

theorem c10_invalid_input_website_field_witness :
    (process_website ⟨.ok [], fun rs => .ok rs, .ok []⟩ []).website = []
    ∧ isNormalizedSiteURL ((process_website ⟨.ok [], fun rs => .ok rs, .ok []⟩ []).website)
        = false
    ∧ (process_website ⟨.ok [], fun rs => .ok rs, .ok []⟩ "site.org".data).website
        = "https://site.org".data := by
  refine ⟨?_, ?_, ?_⟩
  · exact ((c10_invalid_input_website_field ⟨.ok [], fun rs => .ok rs, .ok []⟩ []).1 rfl).1
  · exact ((c10_invalid_input_website_field ⟨.ok [], fun rs => .ok rs, .ok []⟩ []).1 rfl).2.1
  · rw [(c10_invalid_input_website_field ⟨.ok [], fun rs => .ok rs, .ok []⟩
      "site.org".data).2 (by decide)]
    decide

/-- C5: per-site processing produces exactly one result per input site; if
every network sub-call for a site fails (raises, or degrades to an empty
result), the site result pairs the normalized URL with the `Not found` sentinel;
batch processing collects, in any completion order, a permutation of the
per-site results, so each input site contributes exactly one output computed
only from its own environment, and the output count equals the input count. -/
theorem c5_per_site_isolation :
    (∀ (env : SiteEnv) (url0 : List Char),
        (env.parse_feeds = .exn ∨ env.parse_feeds = .ok []) →
        (env.find_feeds_res = .exn ∨ env.find_feeds_res = .ok []) →
        process_website env url0 = { website := normalize_url url0, rss := notFoundStr })
    ∧ (∀ (order : List Nat) (jobs : List (SiteEnv × List Char)),
        order.Perm (List.range jobs.length) →
        (process_all order jobs).Perm (jobs.map (fun j => process_website j.1 j.2))
        ∧ (process_all order jobs).length = jobs.length) := by
  constructor
  · intro env url0 hp hf
    rw [process_website_eq]
    by_cases h : normalize_url url0 = []
    · rw [if_pos h, h]
      have h0 : url0 = [] := (normalize_url_eq_nil_iff url0).mp h
      rw [h0]
    · rw [if_neg h]
      have hrss : caughtFeeds
          (if is_hub_page (normalize_url url0) then hubRoute env else finderRoute env)
          = [] := by
        by_cases hh : is_hub_page (normalize_url url0)
        · rw [if_pos hh]
          rcases hp with hp | hp <;> simp [hubRoute, hp, caughtFeeds]
        · rw [if_neg hh]
          rcases hf with hf | hf <;> simp [finderRoute, hf, caughtFeeds, dedupKeys, dedupFrom]
      rw [hrss]
      rfl
  · intro order jobs hperm
    have hmap := process_all_in_order jobs
    have h1 : (process_all order jobs).Perm (process_all (List.range jobs.length) jobs) :=
      hperm.filterMap _
    rw [hmap] at h1
    exact ⟨h1, by rw [h1.length_eq, List.length_map]⟩

theorem c5_per_site_isolation_witness :
    process_website ⟨.exn, fun rs => .ok rs, .exn⟩ "example.com".data
      = { website := "https://example.com".data, rss := notFoundStr }
    ∧ (process_all [1, 0]
        [(⟨.exn, fun rs => .ok rs, .exn⟩, "a.com".data),
         (⟨.exn, fun rs => .ok rs, .exn⟩, "b.com".data)]).length = 2 := by
  constructor
  · rw [c5_per_site_isolation.1 ⟨.exn, fun rs => .ok rs, .exn⟩ "example.com".data
      (Or.inl rfl) (Or.inl rfl)]
    rw [show normalize_url ("example.com".data) = "https://example.com".data from by decide]
  · exact (c5_per_site_isolation.2 [1, 0] _ (by decide)).2

/-- C4: an existing stored record is overwritten exactly when the new
normalized feed count strictly exceeds the stored feed count — a save with a
smaller-or-equal count leaves the database unchanged, a save with a larger
count replaces the stored string and the stored count becomes the new count —
and the stored feed count of every site never decreases across any save and
any sequence of saves. -/
theorem c4_upsert_policy :
    (∀ (db : DbRows) (site rss : List Char) (old : Option (List Char)),
        dbLookup db (normalize_url site) = some old →
        ((normalize_feed_list rss).length ≤ (parseStoredList old).length →
            save_website_result db site rss = db)
        ∧ ((parseStoredList old).length < (normalize_feed_list rss).length →
            dbLookup (save_website_result db site rss) (normalize_url site)
              = some (some (joinSemiSpace (normalize_feed_list rss)))
            ∧ storedCount (save_website_result db site rss) (normalize_url site)
              = (normalize_feed_list rss).length))
    ∧ (∀ (db : DbRows) (site rss k : List Char),
        storedCount db k ≤ storedCount (save_website_result db site rss) k)
    ∧ (∀ (db : DbRows) (results : List SiteResult) (k : List Char),
        storedCount db k ≤ storedCount (save_batch_results db results) k) := by
  refine ⟨?_, save_mono, save_batch_mono⟩
  intro db site rss old hold
  constructor
  · intro hle
    rw [save_website_result_eq db site rss old hold, if_pos hle]
  · intro hlt
    have hle : ¬(normalize_feed_list rss).length ≤ (parseStoredList old).length := by
      omega
    have hnl : normalize_feed_list rss ≠ [] := by
      intro h0
      rw [h0] at hlt
      simp at hlt
    rw [save_website_result_eq db site rss old hold, if_neg hle, if_neg hnl]
    exact ⟨dbUpsert_lookup_same _ _ _, storedCount_after_overwrite db site rss hnl⟩

theorem c4_upsert_policy_witness :
    save_website_result
        [("https://site.com".data,
          some ("http://site.com/a; http://site.com/b; http://site.com/c".data))]
        "site.com".data ("http://site.com/a; http://site.com/b".data)
      = [("https://site.com".data,
          some ("http://site.com/a; http://site.com/b; http://site.com/c".data))]
    ∧ dbLookup
        (save_website_result
          [("https://site.com".data,
            some ("http://site.com/a; http://site.com/b; http://site.com/c".data))]
          "site.com".data
          "http://site.com/a; http://site.com/b; http://site.com/c; http://site.com/d".data)
        (normalize_url ("site.com".data))
      = some (some (joinSemiSpace (normalize_feed_list
          "http://site.com/a; http://site.com/b; http://site.com/c; http://site.com/d".data))) := by
  constructor
  · exact ((c4_upsert_policy.1 _ _ _
      (some ("http://site.com/a; http://site.com/b; http://site.com/c".data))
      (by decide)).1 (by decide))
  · exact ((c4_upsert_policy.1 _ _ _
      (some ("http://site.com/a; http://site.com/b; http://site.com/c".data))
      (by decide)).2 (by decide)).1

/-- C1 counterexample: the orchestrator normalizes the input to its origin
before the hub check, so for the input `news.example.com/rss` the check
`is_hub_page` is false — contradicting the claim that it evaluates to true —
and the result comes from the Feed Finder route: with a hub-parser oracle
yielding 8 records but an empty finder result, the outcome is the `Not found`
sentinel, not a hub parse. -/
theorem c1_counterexample :
    is_hub_page (normalize_url ("news.example.com/rss".data)) = false
    ∧ process_website
        ⟨.ok [⟨"General".data, "T1".data, "http://news.example.com/f1.xml".data⟩,
              ⟨"General".data, "T2".data, "http://news.example.com/f2.xml".data⟩,
              ⟨"General".data, "T3".data, "http://news.example.com/f3.xml".data⟩,
              ⟨"General".data, "T4".data, "http://news.example.com/f4.xml".data⟩,
              ⟨"General".data, "T5".data, "http://news.example.com/f5.xml".data⟩,
              ⟨"General".data, "T6".data, "http://news.example.com/f6.xml".data⟩,
              ⟨"General".data, "T7".data, "http://news.example.com/f7.xml".data⟩,
              ⟨"General".data, "T8".data, "http://news.example.com/f8.xml".data⟩],
          fun rs => .ok rs, .ok []⟩
        "news.example.com/rss".data
      = { website := "https://news.example.com".data, rss := notFoundStr } := by
  exact ⟨by decide, by decide⟩

/-- C1 (amended): the hub-page check runs on the origin-only normalized URL
(whose parsed path is empty), and it is true exactly when one of the marker
substrings occurs in the normalized `scheme://host` string; for the input
`news.example.com/rss` normalization yields `https://news.example.com`, the
check is false, and the per-site result depends only on the Feed Finder
outcome (the hub-parser and validation oracles are irrelevant); a marker can
still match inside `scheme://host`, e.g. for host `rss.example.com`. -/
theorem c1_amended_routing :
    (∀ raw : List Char, (pyUrlparse (normalize_url raw)).path = [])
    ∧ (∀ raw : List Char, is_hub_page (normalize_url raw) = true ↔
        ∃ p ∈ hubUrlMarkers, containsSub p (pyLower (normalize_url raw)) = true)
    ∧ normalize_url ("news.example.com/rss".data) = "https://news.example.com".data
    ∧ (∀ e1 e2 : SiteEnv, e1.find_feeds_res = e2.find_feeds_res →
        process_website e1 ("news.example.com/rss".data)
          = process_website e2 ("news.example.com/rss".data))
    ∧ is_hub_page (normalize_url ("rss.example.com".data)) = true := by
  refine ⟨?_, ?_, by decide, ?_, by decide⟩
  · intro raw
    exact (parse_normalize_url_origin raw).1
  · intro raw
    unfold is_hub_page
    exact List.any_eq_true
  · intro e1 e2 hff
    rw [process_website_eq, process_website_eq,
      if_neg (by decide : ¬normalize_url ("news.example.com/rss".data) = []),
      if_neg (by decide : ¬normalize_url ("news.example.com/rss".data) = []),
      if_neg (by decide : ¬is_hub_page (normalize_url ("news.example.com/rss".data)) = true),
      if_neg (by decide : ¬is_hub_page (normalize_url ("news.example.com/rss".data)) = true),
      show finderRoute e1 = finderRoute e2 by unfold finderRoute; rw [hff]]

theorem c1_amended_routing_witness :
    process_website
        ⟨.ok [⟨"General".data, "T".data, "http://news.example.com/a.xml".data⟩],
          fun rs => .ok rs, .ok ["http://news.example.com/feed".data]⟩
        "news.example.com/rss".data
      = process_website ⟨.exn, fun _ => .exn, .ok ["http://news.example.com/feed".data]⟩
        "news.example.com/rss".data :=
  c1_amended_routing.2.2.2.1
    ⟨.ok [⟨"General".data, "T".data, "http://news.example.com/a.xml".data⟩],
      fun rs => .ok rs, .ok ["http://news.example.com/feed".data]⟩
    ⟨.exn, fun _ => .exn, .ok ["http://news.example.com/feed".data]⟩ rfl

/-- C6 counterexample: `normalize_feed_list` is not idempotent as claimed — on
the input `http://x.com/p ?` the single entry normalizes to `http://x.com/p `
(the dropped empty query leaves a trailing space), and re-normalizing the
semicolon-joined output strips that space, yielding a different list. -/
theorem c6_counterexample :
    normalize_feed_list (joinSemiSpace (normalize_feed_list ("http://x.com/p ?".data)))
      ≠ normalize_feed_list ("http://x.com/p ?".data)
    ∧ normalize_feed_list ("http://x.com/p ?".data) = ["http://x.com/p ".data]
    ∧ normalize_feed_list (joinSemiSpace (normalize_feed_list ("http://x.com/p ?".data)))
      = ["http://x.com/p".data] := by
  exact ⟨by decide, by decide, by decide⟩

/-- C6 (amended): `normalize_feed_list` maps the `Not found` sentinel and the
empty string to the empty list; its members are exactly the successful
normalizations of the `;`-separated pieces of the input; the result is sorted
lexicographically and duplicate-free; it is idempotent — re-normalizing the
semicolon-joined output yields the same list — whenever no entry of the output
carries leading or trailing whitespace (equivalently, every entry is fixed by
strip); and on the example input it yields the two expected entries. -/
theorem c6_amended_normalize_feed_list :
    normalize_feed_list notFoundStr = []
    ∧ normalize_feed_list [] = []
    ∧ (∀ s x : List Char, x ∈ normalize_feed_list s ↔
        (s ≠ [] ∧ s ≠ notFoundStr ∧
          ∃ piece ∈ pySplit ';' s, normalize_feed_url piece = some x))
    ∧ (∀ s : List Char, List.Sorted (fun a b => a ≤ b) (normalize_feed_list s)
        ∧ (normalize_feed_list s).Nodup)
    ∧ (∀ s : List Char, (∀ x ∈ normalize_feed_list s, pyStrip x = x) →
        normalize_feed_list (joinSemiSpace (normalize_feed_list s))
          = normalize_feed_list s)
    ∧ normalize_feed_list ("http://a.com/f; http://a.com/f/; http://b.com/g".data)
        = ["http://a.com/f".data, "http://b.com/g".data] :=
  ⟨by decide, rfl, mem_normalize_feed_list, normalize_feed_list_sorted,
    normalize_feed_list_idem, by decide⟩

theorem c6_amended_normalize_feed_list_witness :
    normalize_feed_list
        (joinSemiSpace (normalize_feed_list ("http://b.com/x; http://a.com/y".data)))
      = normalize_feed_list ("http://b.com/x; http://a.com/y".data) :=
  c6_amended_normalize_feed_list.2.2.2.2.1 ("http://b.com/x; http://a.com/y".data)
    (by decide)

theorem hubRoute_eq (env : SiteEnv) (records : List FeedRecord)
    (hp : env.parse_feeds = .ok records) :
    hubRoute env =
      if records = [] then .ok []
      else
        match (if 5 < records.length then env.validate records else .ok records) with
        | .exn => .exn
        | .ok objs2 =>
          .ok (dedupKeys (objs2.filterMap (fun f => normalize_feed_url f.url))) := by
  unfold hubRoute
  rw [hp]

/-- C8: on the hub route, when the hub parser yields strictly more than 5 feed
records, batch validation runs and only records whose URL validates enter the
result; when it yields between 1 and 5 records, all of them are accepted with
no validation call (the result is independent of the validator and, when every
record URL is already normalized, contains exactly the records' URLs); the
validation concurrency bound of the source is 10. -/
theorem c8_hub_validation_routing :
    (∀ (env : SiteEnv) (fetch : List Char → FetchOutcome) (url0 : List Char)
        (records : List FeedRecord),
      is_hub_page (normalize_url url0) = true →
      env.parse_feeds = .ok records →
      ((5 < records.length →
          env.validate = (fun rs => .ok (validate_feeds fetch rs)) →
          process_website env url0 =
            { website := normalize_url url0,
              rss := renderFeeds (dedupKeys ((validate_feeds fetch records).filterMap
                (fun f => normalize_feed_url f.url))) })
        ∧ (1 ≤ records.length → records.length ≤ 5 →
            process_website env url0 =
              { website := normalize_url url0,
                rss := renderFeeds (dedupKeys (records.filterMap
                  (fun f => normalize_feed_url f.url))) })
        ∧ ((∀ r ∈ records, normalize_feed_url r.url = some r.url) →
            1 ≤ records.length → records.length ≤ 5 →
            process_website env url0 =
              { website := normalize_url url0,
                rss := renderFeeds (dedupKeys (records.map (fun f => f.url))) })))
    ∧ hubValidationLimit = 10 := by
  refine ⟨?_, rfl⟩
  intro env fetch url0 records hhub hp
  have hne : normalize_url url0 ≠ [] := by
    intro h0
    rw [h0] at hhub
    exact absurd hhub (by decide)
  have hmid : 1 ≤ records.length → records.length ≤ 5 →
      process_website env url0 =
        { website := normalize_url url0,
          rss := renderFeeds (dedupKeys (records.filterMap
            (fun f => normalize_feed_url f.url))) } := by
    intro h1 h5
    have hrecne : records ≠ [] := by
      intro h0
      rw [h0] at h1
      simp at h1
    have hlt : ¬5 < records.length := by omega
    rw [process_website_eq, if_neg hne, if_pos hhub,
      hubRoute_eq env records hp, if_neg hrecne, if_neg hlt]
    rfl
  refine ⟨?_, hmid, ?_⟩
  · intro h5 hval
    have hrecne : records ≠ [] := by
      intro h0
      rw [h0] at h5
      simp at h5
    rw [process_website_eq, if_neg hne, if_pos hhub,
      hubRoute_eq env records hp, if_neg hrecne, if_pos h5, hval]
    rfl
  · intro hfix h1 h5
    rw [hmid h1 h5, filterMap_url_all_some records hfix]

theorem c8_hub_validation_routing_witness :
    process_website
        ⟨.ok [⟨"News".data, "A".data, "http://rss.example.com/a".data⟩,
              ⟨"News".data, "B".data, "http://rss.example.com/b".data⟩,
              ⟨"News".data, "C".data, "http://rss.example.com/c".data⟩,
              ⟨"News".data, "D".data, "http://rss.example.com/d".data⟩,
              ⟨"News".data, "E".data, "http://rss.example.com/e".data⟩,
              ⟨"News".data, "F".data, "http://rss.example.com/f".data⟩],
          fun rs => .ok (validate_feeds (fun _ => .exn) rs), .ok []⟩
        "rss.example.com".data
      = { website := "https://rss.example.com".data,
          rss := renderFeeds (dedupKeys ((validate_feeds (fun _ => .exn)
            [⟨"News".data, "A".data, "http://rss.example.com/a".data⟩,
             ⟨"News".data, "B".data, "http://rss.example.com/b".data⟩,
             ⟨"News".data, "C".data, "http://rss.example.com/c".data⟩,
             ⟨"News".data, "D".data, "http://rss.example.com/d".data⟩,
             ⟨"News".data, "E".data, "http://rss.example.com/e".data⟩,
             ⟨"News".data, "F".data, "http://rss.example.com/f".data⟩]).filterMap
              (fun f => normalize_feed_url f.url))) }
    ∧ process_website
        ⟨.ok [⟨"News".data, "A".data, "http://rss.example.com/a".data⟩,
              ⟨"News".data, "B".data, "http://rss.example.com/b".data⟩],
          fun _ => .exn, .ok []⟩
        "rss.example.com".data
      = { website := "https://rss.example.com".data,
          rss := renderFeeds (dedupKeys
            ([⟨"News".data, "A".data, "http://rss.example.com/a".data⟩,
              ⟨"News".data, "B".data, "http://rss.example.com/b".data⟩].filterMap
              (fun f : FeedRecord => normalize_feed_url f.url))) } := by
  constructor
  · exact (c8_hub_validation_routing.1 _ (fun _ => .exn) "rss.example.com".data _
      (by decide) rfl).1 (by decide) rfl
  · exact (c8_hub_validation_routing.1 _ (fun _ => .exn) "rss.example.com".data _
      (by decide) rfl).2.1 (by decide) (by decide)

/-- C2 counterexample: the source strips ALL trailing slashes from the path
(the rstrip of slashes), not a single one — on `http://x.com/feed//` it returns
`http://x.com/feed`, while the single-slash stripping of the claim (modelled by
`normalizeFeedURLClaim`) yields `http://x.com/feed/`. -/
theorem c2_counterexample :
    normalize_feed_url ("http://x.com/feed//".data) = some ("http://x.com/feed".data)
    ∧ normalizeFeedURLClaim ("http://x.com/feed//".data) = some ("http://x.com/feed/".data)
    ∧ normalize_feed_url ("http://x.com/feed//".data)
        ≠ normalizeFeedURLClaim ("http://x.com/feed//".data) := by
  exact ⟨by decide, by decide, by decide⟩

/-- C2 (amended): `normalize_feed_url` trims whitespace (it is invariant under
stripping its argument and is invalid exactly on inputs that strip to empty),
prepends `https://` when no scheme is present, and on a well-formed assembled
URL `scheme://netloc{path}[?query][#fragment]` it drops the fragment, strips
the params segment and ALL trailing slashes from the path, and appends
`?query` only when the query is nonempty; the claim's concrete example holds. -/
theorem c2_amended_normalize_feed_url :
    (∀ s : List Char, normalize_feed_url s = none ↔ pyStrip s = [])
    ∧ (∀ s : List Char, normalize_feed_url (pyStrip s) = normalize_feed_url s)
    ∧ (∀ s : List Char, pyStrip s ≠ [] → startsWithHttp (pyStrip s) = false →
        normalize_feed_url s = normalize_feed_url ("https://".data ++ pyStrip s))
    ∧ (∀ (sch netloc path : List Char) (qopt fopt : Option (List Char)),
        (sch = "http".data ∨ sch = "https".data) →
        (∀ c ∈ netloc, notUrlDelim c = true) →
        (path = [] ∨ path.head? = some '/') → '?' ∉ path → '#' ∉ path →
        '#' ∉ qopt.getD [] →
        pyStrip (sch ++ (schemeMarker ++ (netloc ++ (path ++
            (optPart '?' qopt ++ optPart '#' fopt)))))
          = sch ++ (schemeMarker ++ (netloc ++ (path ++
              (optPart '?' qopt ++ optPart '#' fopt)))) →
        normalize_feed_url (sch ++ (schemeMarker ++ (netloc ++ (path ++
            (optPart '?' qopt ++ optPart '#' fopt)))))
          = some (sch ++ schemeMarker ++ netloc ++ rstripSlash (splitParams path) ++
              (if qopt.getD [] = [] then [] else '?' :: qopt.getD [])))
    ∧ normalize_feed_url ("http://x.com/feed/?a=1#frag".data)
        = some ("http://x.com/feed?a=1".data) := by
  refine ⟨normalize_feed_url_none_iff, normalize_feed_url_strip_arg, ?_, ?_, by decide⟩
  · intro s hne hsw
    have hA : pyStrip ("https://".data ++ pyStrip s) = "https://".data ++ pyStrip s := by
      apply pyStrip_eq_self
      · intro c hc
        have hc2 : some 'h' = some c := hc
        cases hc2
        decide
      · intro c hc
        rw [List.getLast?_append] at hc
        cases hl : (pyStrip s).getLast? with
        | none => exact absurd (List.getLast?_eq_none_iff.mp hl) hne
        | some d =>
          rw [hl] at hc
          have hdc : d = c := by simpa using hc
          subst hdc
          exact pyStrip_getLast_not_space s d hl
    have hAne : ("https://".data ++ pyStrip s) ≠ [] := by
      intro hcon
      rcases List.append_eq_nil.mp hcon with ⟨h1, _⟩
      exact absurd h1 (by decide)
    have hsw2 : startsWithHttp ("https://".data ++ pyStrip s) = true := by
      unfold startsWithHttp
      rw [strStarts_refl_append]
      simp
    rw [← normalize_feed_url_strip_arg s, normalize_feed_url_eq, normalize_feed_url_eq,
      pyStrip_idem, hA, if_neg hne, if_neg hne, if_neg hAne, if_neg hAne, hsw, hsw2]
    simp
  · intro sch netloc path qopt fopt hsch hn hpath hp1 hp2 hq hstrip
    have hswA := startsWithHttp_assembled sch
      (netloc ++ (path ++ (optPart '?' qopt ++ optPart '#' fopt))) hsch
    have hAne := assembled_ne_nil sch
      (netloc ++ (path ++ (optPart '?' qopt ++ optPart '#' fopt))) hsch
    rw [normalize_feed_url_eq, hstrip, if_neg hAne, if_neg hAne, if_pos hswA,
      pyUrlparse_assembled sch netloc path qopt fopt hsch hn hpath hp1 hp2 hq,
      reassemble_eq]
    by_cases hq0 : qopt.getD [] = [] <;> simp [hq0, optPart, List.append_assoc]

theorem c2_amended_normalize_feed_url_witness :
    normalize_feed_url ("x.com/feed".data)
      = normalize_feed_url ("https://".data ++ pyStrip ("x.com/feed".data))
    ∧ normalize_feed_url ("http://x.com/a//#frag".data) = some ("http://x.com/a".data) := by
  constructor
  · exact c2_amended_normalize_feed_url.2.2.1 ("x.com/feed".data) (by decide) (by decide)
  · have h := c2_amended_normalize_feed_url.2.2.2.1 ("http".data) "x.com".data ("/a//".data)
      none (some ("frag".data)) (Or.inl rfl) (by decide) (Or.inr (by decide))
      (by decide) (by decide) (by decide) (by decide)
    exact h

theorem c7_looks_like_hub_page_witness :
    looks_like_hub_page ("one.xml two.xml three.xml".data) = true :=
  (c7_looks_like_hub_page.1 ("one.xml two.xml three.xml".data)).mpr (Or.inr (by decide))
